import Mathlib

/-!
Verification of the PyMite virtual-machine memory subsystem: the chunk-based
heap allocator, the mark-sweep garbage collector, and the segmented-list
("seglist") container engine whose interfaces are declared in
`src/vm/seglist.h` and `src/vm/mem.h`.  The C implementation files are not
part of the tree (only the headers and the unit-test driver are), so each
operational definition below is modelled from the specification, following
its wording; the constants and record layouts come from the headers
(`SEGLIST_OBJS_PER_SEG = 8`, the `Segment_t`/`Seglist_t` fields, the
signatures of the seglist operations).
-/

namespace PyMite

/-- Return status of a VM memory operation.  The header uses the generic
`PM_RET_OK` / `PM_RET_ERR`; the specification refines the error side into an
explicit taxonomy (`OUT_OF_MEMORY`, `INVALID_COORDINATE`, `NOT_FOUND`), which
we adopt.  `ERR` stands for the unrecoverable arena-corruption case. -/
inductive PmReturn where
  | OK
  | OUT_OF_MEMORY
  | INVALID_COORDINATE
  | NOT_FOUND
  | ERR
  deriving DecidableEq

/-! ## Garbage collector: mark-sweep over an object graph

Modelled from the spec: `heap.c` / the collector implementation is absent
from the tree.  Per the specification, the collector sees the heap as a set
of objects, each carrying a descriptor through which its outgoing object
references can be enumerated, plus a root set supplied by the interpreter.
We model the heap contents at collection time as a finite graph on `Fin n`:
`refs o` is the list of object references held inside object `o`, and
`roots` is the enumerated root set. -/
structure ObjGraph (n : Nat) where
  refs : Fin n → List (Fin n)
  roots : List (Fin n)

/-- One step of reference traversal: object `b` is directly referenced by
object `a`. -/
def GCStep {n : Nat} (g : ObjGraph n) (a b : Fin n) : Prop :=
  b ∈ g.refs a

/-- An object is reachable when some root reaches it by following object
references transitively. -/
def GCReachable {n : Nat} (g : ObjGraph n) (y : Fin n) : Prop :=
  ∃ r ∈ g.roots, Relation.ReflTransGen (GCStep g) r y

/-- Modelled from the spec: the mark phase.  `marked` is the set of objects
whose mark bit is set, `wl` the worklist of references still to visit.  An
object already marked is skipped; an unmarked object has its mark bit set and
is descended into (its references are pushed on the worklist) — the mark bit
is what prevents descending into an object twice, and hence what makes the
traversal terminate on cyclic graphs.  The function returns the final marked
set together with the list of objects that were descended into, in order. -/
def markVisit {n : Nat} (g : ObjGraph n) :
    Finset (Fin n) → List (Fin n) → Finset (Fin n) × List (Fin n)
  | marked, [] => (marked, [])
  | marked, x :: rest =>
    if x ∈ marked then
      markVisit g marked rest
    else
      let r := markVisit g (insert x marked) (g.refs x ++ rest)
      (r.1, x :: r.2)
termination_by marked wl => ((Finset.univ \ marked).card, wl.length)
decreasing_by
  · apply Prod.Lex.right
    simp
  · apply Prod.Lex.left
    have hx : x ∈ Finset.univ \ marked := by simp [*]
    rw [Finset.sdiff_insert]
    exact Finset.card_erase_lt_of_mem hx

/-- The set of objects whose mark bit is set after a full mark phase started
from the root set with all mark bits clear. -/
def gcMark {n : Nat} (g : ObjGraph n) : Finset (Fin n) :=
  (markVisit g ∅ g.roots).1

/-- The objects descended into during a full mark phase, in visit order. -/
def gcDescentList {n : Nat} (g : ObjGraph n) : List (Fin n) :=
  (markVisit g ∅ g.roots).2

/-- Modelled from the spec: the sweep phase walks every chunk in the arena
and the allocated chunks whose mark bit is unset are returned to the free
lists.  Survivors are the marked objects. -/
def gcSurvivors {n : Nat} (g : ObjGraph n) : Finset (Fin n) :=
  Finset.univ.filter (fun o => o ∈ gcMark g)

/-- The objects reclaimed (returned to the free lists) by the sweep phase:
exactly the unmarked ones. -/
def gcReclaimed {n : Nat} (g : ObjGraph n) : Finset (Fin n) :=
  Finset.univ.filter (fun o => o ∉ gcMark g)

/-- The fixed, build-time size-class configuration: `sizes` lists the chunk
size of each class, in ascending order of class index. -/
structure HeapCfg where
  sizes : List Nat

/-- The allocator's mutable state: number of free and of allocated chunks in
each size class (indexed like `HeapCfg.sizes`). -/
structure HeapSt where
  free : List Nat
  alloc : List Nat
  deriving DecidableEq

/-- A chunk handed out by the allocator: the index of its size class and its
contents. -/
structure Chunk where
  cls : Nat
  bytes : List Nat
  deriving DecidableEq

/-- Does a size class (chunk size `sf.1`, free count `sf.2`) satisfy a
request of `size` bytes right now? -/
def chunkFits (size : Nat) (sf : Nat × Nat) : Bool :=
  decide (size ≤ sf.1) && decide (0 < sf.2)

/-- The smallest size class that fits the request and has a free chunk. -/
def findFit (cfg : HeapCfg) (st : HeapSt) (size : Nat) : Option Nat :=
  (cfg.sizes.zip st.free).findIdx? (chunkFits size)

/-- A freshly allocated chunk of class `i`: zero-initialized, of the class's
full size. -/
def mkChunk (cfg : HeapCfg) (i : Nat) : Chunk :=
  ⟨i, List.replicate (cfg.sizes.getD i 0) 0⟩

/-- Move one chunk of class `i` from the free list to the allocated set. -/
def takeChunk (st : HeapSt) (i : Nat) : HeapSt :=
  ⟨st.free.set i (st.free.getD i 0 - 1), st.alloc.set i (st.alloc.getD i 0 + 1)⟩

/-- Outcome of an allocation request: status, the chunk handed out (on
success), the heap state afterwards, and how many garbage collections the
request triggered. -/
structure AllocOutcome where
  status : PmReturn
  chunk : Option Chunk
  heap : HeapSt
  gcRuns : Nat
  deriving DecidableEq

/-- Modelled from the spec: `heap_getChunk` (the `allocate(size)` contract of
§4.1; the implementation is absent from the tree).  It returns a
zero-initialized chunk from the smallest size class that fits; if no free
chunk of a sufficient class exists it invokes the collector (`collect`) once
and retries; if still unsatisfiable it fails with `OUT_OF_MEMORY`. -/
def heap_getChunk (cfg : HeapCfg) (collect : HeapSt → HeapSt) (st : HeapSt)
    (size : Nat) : AllocOutcome :=
  match findFit cfg st size with
  | some i => ⟨.OK, some (mkChunk cfg i), takeChunk st i, 0⟩
  | none =>
    match findFit cfg (collect st) size with
    | some i => ⟨.OK, some (mkChunk cfg i), takeChunk (collect st) i, 1⟩
    | none => ⟨.OUT_OF_MEMORY, none, collect st, 1⟩

/-- Iterated allocation: the heap state after `k` successive requests of
`size` bytes (each request keeps whatever state its outcome left). -/
def allocRepeat (cfg : HeapCfg) (collect : HeapSt → HeapSt) (size : Nat)
    (st : HeapSt) : Nat → HeapSt
  | 0 => st
  | k + 1 => (heap_getChunk cfg collect (allocRepeat cfg collect size st k) size).heap

/-- A request of `size` bytes is satisfiable from the current free lists:
some size class is large enough and has a free chunk. -/
def Satisfiable (cfg : HeapCfg) (st : HeapSt) (size : Nat) : Prop :=
  ∃ i < cfg.sizes.length, size ≤ cfg.sizes.getD i 0 ∧ 0 < st.free.getD i 0

/-- Class `i` is the smallest size class that fits the request and has a
free chunk in state `st`. -/
def SmallestFit (cfg : HeapCfg) (st : HeapSt) (size : Nat) (i : Nat) : Prop :=
  size ≤ cfg.sizes.getD i 0 ∧ 0 < st.free.getD i 0 ∧
    ∀ j < i, ¬(size ≤ cfg.sizes.getD j 0 ∧ 0 < st.free.getD j 0)

/-- Modelled from the spec: a mark-sweep collection as the allocator sees
it.  The sweep returns some allocated chunks to their size class free lists;
`reclaim` says how many chunks of each class the mark phase left unmarked
(capped by the number actually allocated). -/
def gcCollect (reclaim : List Nat) (st : HeapSt) : HeapSt :=
  ⟨(List.range st.free.length).map
      (fun i => st.free.getD i 0 + min (reclaim.getD i 0) (st.alloc.getD i 0)),
    (List.range st.alloc.length).map
      (fun i => st.alloc.getD i 0 - min (reclaim.getD i 0) (st.alloc.getD i 0))⟩

/-- Modelled from the spec: `release(chunk)` returns a chunk of class `i` to
its size class's free list.  The caller must hold an allocated chunk of that
class; the model guards on that (a release with no allocated chunk of the
class is a no-op rather than undefined behaviour). -/
def heap_freeChunk (st : HeapSt) (i : Nat) : HeapSt :=
  if 0 < st.alloc.getD i 0 then
    ⟨st.free.set i (st.free.getD i 0 + 1), st.alloc.set i (st.alloc.getD i 0 - 1)⟩
  else st

/-- A heap-facing operation: an allocation request (`reclaim` describes what
a collection triggered by it would free, per class) or an explicit release
of a chunk of a given class. -/
inductive HeapOp where
  | request (size : Nat) (reclaim : List Nat)
  | release (cls : Nat)

/-- One heap operation applied to the allocator state. -/
def heapStep (cfg : HeapCfg) (st : HeapSt) : HeapOp → HeapSt
  | .request size reclaim => (heap_getChunk cfg (gcCollect reclaim) st size).heap
  | .release cls => heap_freeChunk st cls

/-- A sequence of heap operations applied in order. -/
def heapRun (cfg : HeapCfg) : HeapSt → List HeapOp → HeapSt
  | st, [] => st
  | st, op :: ops => heapRun cfg (heapStep cfg st op) ops

/-- Object references stored in seglist slots are opaque to the seglist
engine; we model them as identifiers. -/
abbrev Obj := Nat

/-- `SEGLIST_OBJS_PER_SEG` from `seglist.h`: the length of the object array
in a segment. -/
def SEGLIST_OBJS_PER_SEG : Nat := 8

/-- `Segment_t` from `seglist.h`: an array of pointers to objects (`s_val`,
a slot holds `none` when it is beyond the index of the last item) and a
pointer to the next segment (`none` standing for `C_NULL`). -/
structure Segment where
  s_val : List (Option Obj)
  next : Option Nat
  deriving DecidableEq

/-- The chunk heap as the seglist engine sees it: address/segment pairs, the
fresh-address supply, and the number of chunks still available. -/
structure Store where
  segs : List (Nat × Segment)
  nextAddr : Nat
  avail : Nat
  deriving DecidableEq

/-- Dereference a segment address. -/
def Store.find (st : Store) (a : Nat) : Option Segment :=
  (st.segs.find? (fun p => p.1 == a)).map (fun p => p.2)

/-- Update the segment at address `a` in place. -/
def Store.modifySeg (st : Store) (a : Nat) (f : Segment → Segment) : Store :=
  ⟨st.segs.map (fun p => if p.1 == a then (p.1, f p.2) else p),
    st.nextAddr, st.avail⟩

/-- A fresh zero-initialized segment chunk: all slots empty, `next = C_NULL`. -/
def newSegment : Segment :=
  ⟨List.replicate SEGLIST_OBJS_PER_SEG none, none⟩

/-- Request a chunk for one segment from the heap allocator; fails when the
allocator has no chunk left. -/
def Store.allocSeg (st : Store) : Option (Nat × Store) :=
  if st.avail = 0 then none
  else some (st.nextAddr,
    ⟨(st.nextAddr, newSegment) :: st.segs, st.nextAddr + 1, st.avail - 1⟩)

/-- `Seglist_t` from `seglist.h`: pointer to the first segment, pointer to
the last segment, and the index of one past the last object in the last
segment (`S8` in the source; its value always stays in `[0, 8]`). -/
structure Seglist where
  sl_rootseg : Option Nat
  sl_lastseg : Option Nat
  sl_lastindx : Nat
  deriving DecidableEq

/-- Store an object pointer into slot `i` of a segment. -/
def Segment.setSlot (s : Segment) (i : Nat) (o : Obj) : Segment :=
  ⟨s.s_val.set i (some o), s.next⟩

/-- Modelled from the spec: `seglist_new` allocates an empty seglist (root
segment pointer null, last-index 0); fails with an allocation error if the
heap cannot produce the descriptor chunk. -/
def seglist_new (st : Store) : PmReturn × Option Seglist × Store :=
  if st.avail = 0 then (.OUT_OF_MEMORY, none, st)
  else (.OK, some ⟨none, none, 0⟩, ⟨st.segs, st.nextAddr, st.avail - 1⟩)

/-- Modelled from the spec: `seglist_appendItem` puts the new object at the
logical end of the list.  If the seglist has no segment yet, or the last
segment is full (`sl_lastindx = SEGLIST_OBJS_PER_SEG`), a new segment chunk
is allocated and linked first; an allocation failure is propagated before
any mutation, leaving the seglist in its prior state.  (The `ERR` branch is
the arena-corruption case of a non-null root with a null last pointer; it is
unreachable from a well-formed seglist.) -/
def seglist_appendItem (st : Store) (sl : Seglist) (obj : Obj) :
    PmReturn × Seglist × Store :=
  if sl.sl_rootseg = none ∨ sl.sl_lastindx = SEGLIST_OBJS_PER_SEG then
    match st.allocSeg with
    | none => (.OUT_OF_MEMORY, sl, st)
    | some (a, st1) =>
      match sl.sl_lastseg with
      | none =>
        (.OK, ⟨some a, some a, 1⟩, st1.modifySeg a (fun s => s.setSlot 0 obj))
      | some la =>
        (.OK, ⟨sl.sl_rootseg, some a, 1⟩,
          (st1.modifySeg la (fun s => ⟨s.s_val, some a⟩)).modifySeg a
            (fun s => s.setSlot 0 obj))
  else
    match sl.sl_lastseg with
    | none => (.ERR, sl, st)
    | some la =>
      (.OK, ⟨sl.sl_rootseg, sl.sl_lastseg, sl.sl_lastindx + 1⟩,
        st.modifySeg la (fun s => s.setSlot sl.sl_lastindx obj))

/-- Modelled from the spec: `seglist_insertItem` places the object in the
first available slot (Dict semantics, where the seglist index is
insignificant).  Design note §9 leaves the insertion policy free as long as
`findEqual` correctness is preserved; in a dense seglist the available slots
are exactly those at the logical end, so the model places the object there.
The coordinate arguments of the C signature are where the caller would like
the item; only `findEqual` reachability is guaranteed.  Any error condition
comes from the chunk allocator. -/
def seglist_insertItem (st : Store) (sl : Seglist) (obj : Obj)
    (segnum segindx : Nat) : PmReturn × Seglist × Store :=
  seglist_appendItem st sl obj

/-- Follow `next` links `hops` times from the given segment address. -/
def walkSeg (st : Store) : Option Nat → Nat → Option Nat
  | none, _ => none
  | some a, 0 => some a
  | some a, hops + 1 =>
    match st.find a with
    | none => none
    | some s => walkSeg st s.next hops

/-- Modelled from the spec: `seglist_getItem` reads the slot at coordinates
(segment number, index within segment); the segment number selects a segment
by walking `next` links from the root that many times.  Out-of-range
coordinates (segment number beyond the chain, index outside the segment, or
index at or past the logical end of data) are reported as
`INVALID_COORDINATE`, never clamped. -/
def seglist_getItem (st : Store) (sl : Seglist) (segnum segindx : Nat) :
    PmReturn × Option Obj :=
  match walkSeg st sl.sl_rootseg segnum with
  | none => (.INVALID_COORDINATE, none)
  | some a =>
    match st.find a with
    | none => (.INVALID_COORDINATE, none)
    | some s =>
      if segindx < SEGLIST_OBJS_PER_SEG ∧
          (sl.sl_lastseg = some a → segindx < sl.sl_lastindx) then
        match s.s_val.getD segindx none with
        | none => (.ERR, none)
        | some o => (.OK, some o)
      else (.INVALID_COORDINATE, none)

/-- Modelled from the spec: `seglist_setItem` overwrites the slot at the
given coordinates (validated exactly like `seglist_getItem`); on any
out-of-range coordinates it fails with `INVALID_COORDINATE` and leaves the
store untouched. -/
def seglist_setItem (st : Store) (sl : Seglist) (obj : Obj)
    (segnum segindx : Nat) : PmReturn × Store :=
  match walkSeg st sl.sl_rootseg segnum with
  | none => (.INVALID_COORDINATE, st)
  | some a =>
    match st.find a with
    | none => (.INVALID_COORDINATE, st)
    | some _ =>
      if segindx < SEGLIST_OBJS_PER_SEG ∧
          (sl.sl_lastseg = some a → segindx < sl.sl_lastindx) then
        (.OK, st.modifySeg a (fun s => s.setSlot segindx obj))
      else (.INVALID_COORDINATE, st)

/-- Does a slot hold an object equal to the probe under the object system's
equality `eq`? -/
def slotMatches (eq : Obj → Obj → Bool) (pobj : Obj) (slot : Option Obj) : Bool :=
  match slot with
  | none => false
  | some o => eq o pobj

/-- Linear scan of the segment chain for `seglist_findEqual`: examine slots
`indx, indx+1, …` of the segment at the given address, then every slot of
every following segment.  `fuel` bounds the number of segments visited (the
caller passes more fuel than any well-formed chain is long). -/
def findEqualAux (st : Store) (eq : Obj → Obj → Bool) (pobj : Obj) :
    Nat → Option Nat → Nat → Nat → PmReturn × Option (Nat × Nat)
  | _, none, _, _ => (.NOT_FOUND, none)
  | 0, some _, _, _ => (.NOT_FOUND, none)
  | fuel + 1, some a, segnum, indx =>
    match st.find a with
    | none => (.NOT_FOUND, none)
    | some s =>
      match (s.s_val.drop indx).findIdx? (slotMatches eq pobj) with
      | some j => (.OK, some (segnum, indx + j))
      | none => findEqualAux st eq pobj fuel s.next (segnum + 1) 0

/-- Modelled from the spec: `seglist_findEqual` scans linearly from the
given start coordinates, testing each occupied slot for equality against
`pobj` under the object system's equality semantics `eq`; on success the
coordinates of the first match are returned, otherwise the scan exhausts
with `NOT_FOUND` (the output coordinates then undefined, modelled as
`none`).  The search does not modify the seglist (its type returns no
store). -/
def seglist_findEqual (st : Store) (sl : Seglist) (eq : Obj → Obj → Bool)
    (pobj : Obj) (segnum indx : Nat) : PmReturn × Option (Nat × Nat) :=
  findEqualAux st eq pobj (st.segs.length + 1) (walkSeg st sl.sl_rootseg segnum)
    segnum indx

/-- Modelled from the spec: `seglist_clear` unlinks the root segment and
drops the references (the `SEGLIST_CLEAR_SEGMENTS = 0` build option: the
chain is left for the next collection cycle to reclaim). -/
def seglist_clear (st : Store) (sl : Seglist) : Seglist × Store :=
  (⟨none, none, 0⟩, st)

/-- The addresses of the segment chain starting at `y`, following `next`
links until the null sentinel; `none` when the sentinel is not reached
within `fuel` dereferences (a dangling or circular chain). -/
def chainFrom (st : Store) : Nat → Option Nat → Option (List Nat)
  | _, none => some []
  | 0, some _ => none
  | fuel + 1, some a =>
    match st.find a with
    | none => none
    | some s => (chainFrom st fuel s.next).map (fun l => a :: l)

/-- The addresses of a seglist's segment chain, root first.  The fuel
`st.segs.length + 1` is enough for every chain of distinct stored
addresses. -/
def seglistChain (st : Store) (sl : Seglist) : Option (List Nat) :=
  chainFrom st (st.segs.length + 1) sl.sl_rootseg

/-- The objects stored in a segment, in slot order. -/
def segItems (s : Segment) : List Obj :=
  s.s_val.filterMap id

/-- All objects held in a seglist, in chain-then-slot order. -/
def seglistItems (st : Store) (sl : Seglist) : List Obj :=
  match seglistChain st sl with
  | none => []
  | some addrs =>
    addrs.flatMap (fun a =>
      match st.find a with
      | none => []
      | some s => segItems s)

/-- A segment is filled to `k`: slots below `k` hold objects, slots from `k`
up are empty (the dense discipline). -/
def SegFilled (s : Segment) (k : Nat) : Prop :=
  ∃ objs : List Obj, objs.length = k ∧
    s.s_val = objs.map some ++ List.replicate (SEGLIST_OBJS_PER_SEG - k) none

/-- Every address stored in the segment heap is below the fresh-address
supply counter. -/
def StoreInv (st : Store) : Prop :=
  ∀ p ∈ st.segs, p.1 < st.nextAddr

/-- Structural consistency of a seglist (specification §3 "Segment" and
"Seglist" invariants): the chain from `sl_rootseg` is finite and
non-circular, ending in the null sentinel; an empty seglist has null root
and last pointers and `sl_lastindx = 0`; a non-empty seglist has
`sl_lastseg` pointing to the final segment of the chain and
`sl_lastindx ∈ [1, 8]`; every segment before the last is full and the last
is filled exactly to `sl_lastindx` (density: no gaps before the logical end
of data, nothing after it). -/
def SeglistInv (st : Store) (sl : Seglist) : Prop :=
  StoreInv st ∧
  ∃ addrs : List Nat,
    seglistChain st sl = some addrs ∧
    addrs.Nodup ∧
    (addrs = [] →
      sl.sl_rootseg = none ∧ sl.sl_lastseg = none ∧ sl.sl_lastindx = 0) ∧
    (addrs ≠ [] →
      sl.sl_lastseg = addrs.getLast? ∧ 1 ≤ sl.sl_lastindx ∧
        sl.sl_lastindx ≤ SEGLIST_OBJS_PER_SEG) ∧
    (∀ a ∈ addrs.dropLast, ∃ s, st.find a = some s ∧
      SegFilled s SEGLIST_OBJS_PER_SEG) ∧
    (∀ a, addrs.getLast? = some a → ∃ s, st.find a = some s ∧
      SegFilled s sl.sl_lastindx)

/-- The objects held in the segment at address `a` (empty for a dangling
address). -/
def segItemsAt (st : Store) (a : Nat) : List Obj :=
  match st.find a with
  | none => []
  | some s => segItems s

/-- Coordinate order of the linear scan: `(sn, ix)` is at or after the start
coordinates `(c.1, c.2)`. -/
def coordLe (c1 c2 : Nat × Nat) : Prop :=
  c1.1 < c2.1 ∨ (c1.1 = c2.1 ∧ c1.2 ≤ c2.2)

/-- Strictly earlier in scan order. -/
def coordLt (c1 c2 : Nat × Nat) : Prop :=
  c1.1 < c2.1 ∨ (c1.1 = c2.1 ∧ c1.2 < c2.2)

/-- The slot at coordinates `(sn, ix)` of the chain rooted at `root` holds
object `o`. -/
def SlotAt (st : Store) (root : Option Nat) (sn ix : Nat) (o : Obj) : Prop :=
  ∃ a s, walkSeg st root sn = some a ∧ st.find a = some s ∧
    s.s_val.getD ix none = some o

/-- Apply `seglist_appendItem` once per object, left to right (a failed
append leaves the seglist and store unchanged and the run continues); the
Boolean records whether every append succeeded. -/
def appendRunOK : Store → Seglist → List Obj → Bool × Seglist × Store
  | st, sl, [] => (true, sl, st)
  | st, sl, o :: rest =>
    match seglist_appendItem st sl o with
    | (ret, sl1, st1) =>
      match appendRunOK st1 sl1 rest with
      | (ok, rest') => (decide (ret = .OK) && ok, rest')

/-- An append run started from a fresh empty store (fresh-address counter
`n0`, `avail` chunks available) and a newly initialized empty seglist. -/
def appendRun0 (n0 avail : Nat) (objs : List Obj) : Bool × Seglist × Store :=
  appendRunOK ⟨[], n0, avail⟩ ⟨none, none, 0⟩ objs

/-- The concrete two-segment scenario: nine appends of the objects 0..8
onto a freshly created empty seglist, with exactly two segment chunks
available. -/
def nineAppendRun : Bool × Seglist × Store :=
  appendRun0 0 2 [0, 1, 2, 3, 4, 5, 6, 7, 8]

theorem markVisit_mono {n : Nat} (g : ObjGraph n) (marked : Finset (Fin n))
    (wl : List (Fin n)) : marked ⊆ (markVisit g marked wl).1 := by
  induction marked, wl using markVisit.induct g with
  | case1 marked => simp [markVisit]
  | case2 marked x rest hx ih =>
    rw [markVisit, if_pos hx]
    exact ih
  | case3 marked x rest hx ih =>
    rw [markVisit, if_neg hx]
    exact fun y hy => ih (Finset.mem_insert_of_mem hy)

theorem markVisit_wl_subset {n : Nat} (g : ObjGraph n) (marked : Finset (Fin n))
    (wl : List (Fin n)) : ∀ x ∈ wl, x ∈ (markVisit g marked wl).1 := by
  induction marked, wl using markVisit.induct g with
  | case1 marked => simp
  | case2 marked x rest hx ih =>
    rw [markVisit, if_pos hx]
    intro y hy
    rcases List.mem_cons.mp hy with h | h
    · subst h
      exact markVisit_mono g marked rest hx
    · exact ih y h
  | case3 marked x rest hx ih =>
    rw [markVisit, if_neg hx]
    intro y hy
    rcases List.mem_cons.mp hy with h | h
    · subst h
      exact markVisit_mono g _ _ (Finset.mem_insert_self _ marked)
    · exact ih y (List.mem_append_right _ h)

theorem markVisit_closed {n : Nat} (g : ObjGraph n) (marked : Finset (Fin n))
    (wl : List (Fin n))
    (H : ∀ y ∈ marked, ∀ z ∈ g.refs y, z ∈ marked ∨ z ∈ wl) :
    ∀ y ∈ (markVisit g marked wl).1, ∀ z ∈ g.refs y,
      z ∈ (markVisit g marked wl).1 := by
  induction marked, wl using markVisit.induct g with
  | case1 marked =>
    intro y hy z hz
    simp only [markVisit] at hy ⊢
    rcases H y hy z hz with h | h
    · exact h
    · simp at h
  | case2 marked x rest hx ih =>
    rw [markVisit, if_pos hx] at *
    apply ih
    intro y hy z hz
    rcases H y hy z hz with h | h
    · exact Or.inl h
    · rcases List.mem_cons.mp h with h' | h'
      · exact Or.inl (h' ▸ hx)
      · exact Or.inr h'
  | case3 marked x rest hx ih =>
    rw [markVisit, if_neg hx] at *
    apply ih
    intro y hy z hz
    rcases Finset.mem_insert.mp hy with h | h
    · subst h
      exact Or.inr (List.mem_append_left _ hz)
    · rcases H y h z hz with h' | h'
      · exact Or.inl (Finset.mem_insert_of_mem h')
      · rcases List.mem_cons.mp h' with h'' | h''
        · exact Or.inl (h'' ▸ Finset.mem_insert_self x marked)
        · exact Or.inr (List.mem_append_right _ h'')

theorem markVisit_sound {n : Nat} (g : ObjGraph n) (R : Fin n → Prop)
    (Rstep : ∀ a, R a → ∀ b ∈ g.refs a, R b) (marked : Finset (Fin n))
    (wl : List (Fin n)) (Hm : ∀ y ∈ marked, R y) (Hw : ∀ y ∈ wl, R y) :
    ∀ y ∈ (markVisit g marked wl).1, R y := by
  induction marked, wl using markVisit.induct g with
  | case1 marked =>
    simpa [markVisit] using Hm
  | case2 marked x rest hx ih =>
    rw [markVisit, if_pos hx]
    exact ih Hm fun y hy => Hw y (List.mem_cons_of_mem x hy)
  | case3 marked x rest hx ih =>
    rw [markVisit, if_neg hx]
    have hRx : R x := Hw x (List.mem_cons_self _ _)
    apply ih
    · intro y hy
      rcases Finset.mem_insert.mp hy with h | h
      · exact h ▸ hRx
      · exact Hm y h
    · intro y hy
      rcases List.mem_append.mp hy with h | h
      · exact Rstep x hRx y h
      · exact Hw y (List.mem_cons_of_mem x h)

theorem markVisit_descents_fresh {n : Nat} (g : ObjGraph n)
    (marked : Finset (Fin n)) (wl : List (Fin n)) :
    (∀ d ∈ (markVisit g marked wl).2, d ∉ marked) ∧
      (markVisit g marked wl).2.Nodup := by
  induction marked, wl using markVisit.induct g with
  | case1 marked => simp [markVisit]
  | case2 marked x rest hx ih =>
    rw [markVisit, if_pos hx]
    exact ih
  | case3 marked x rest hx ih =>
    rw [markVisit, if_neg hx]
    refine ⟨?_, ?_⟩
    · intro d hd
      rcases List.mem_cons.mp hd with h | h
      · exact h ▸ hx
      · intro hcon
        exact ih.1 d h (Finset.mem_insert_of_mem hcon)
    · refine List.nodup_cons.mpr ⟨?_, ih.2⟩
      intro hcon
      exact ih.1 x hcon (Finset.mem_insert_self x marked)

theorem gcMark_iff_reachable {n : Nat} (g : ObjGraph n) (y : Fin n) :
    y ∈ gcMark g ↔ GCReachable g y := by
  constructor
  · intro hy
    refine markVisit_sound g (GCReachable g) ?_ ∅ g.roots (by simp) ?_ y hy
    · rintro a ⟨r, hr, hpath⟩ b hb
      exact ⟨r, hr, Relation.ReflTransGen.tail hpath hb⟩
    · intro z hz
      exact ⟨z, hz, Relation.ReflTransGen.refl⟩
  · rintro ⟨r, hr, hpath⟩
    have hclosed := markVisit_closed g ∅ g.roots (by simp)
    have hroot : r ∈ gcMark g := markVisit_wl_subset g ∅ g.roots r hr
    induction hpath with
    | refl => exact hroot
    | tail hab hbc ih => exact hclosed _ ih _ hbc

/-- Claim C1: for every object graph, including graphs with reference
cycles, a full mark-sweep collection preserves exactly the objects reachable
from the root set — every reachable object survives, every unreachable
object is reclaimed — and the mark phase descends into each object at most
once (its descent list has no duplicates), so cycles cannot cause
non-termination (the recursion of `markVisit` is well-founded on the set of
unmarked objects). -/
theorem gc_markSweep_reachability {n : Nat} (g : ObjGraph n) (o : Fin n) :
    (o ∈ gcSurvivors g ↔ GCReachable g o) ∧
      (o ∈ gcReclaimed g ↔ ¬GCReachable g o) ∧
      (gcDescentList g).Nodup := by
  refine ⟨?_, ?_, ?_⟩
  · rw [gcSurvivors, Finset.mem_filter]
    simp [gcMark_iff_reachable]
  · rw [gcReclaimed, Finset.mem_filter]
    simp [gcMark_iff_reachable]
  · exact (markVisit_descents_fresh g ∅ g.roots).2

theorem getD_eq_getElem (l : List Nat) (i : Nat) (h : i < l.length) :
    l.getD i 0 = l[i] := by
  simp [List.getD_eq_getElem?_getD, List.getElem?_eq_getElem h]

theorem lt_length_of_getD_pos (l : List Nat) (i : Nat) (h : 0 < l.getD i 0) :
    i < l.length := by
  by_contra hc
  rw [List.getD_eq_getElem?_getD, List.getElem?_eq_none (Nat.le_of_not_lt hc)] at h
  simp at h

theorem chunkFits_iff (size : Nat) (sf : Nat × Nat) :
    chunkFits size sf = true ↔ size ≤ sf.1 ∧ 0 < sf.2 := by
  simp [chunkFits]

theorem findFit_some (cfg : HeapCfg) (st : HeapSt) (size i : Nat)
    (h : findFit cfg st size = some i) :
    i < cfg.sizes.length ∧ i < st.free.length ∧ SmallestFit cfg st size i := by
  rw [findFit, List.findIdx?_eq_some_iff_getElem] at h
  obtain ⟨hlt, hp, hmin⟩ := h
  have hlf : i < st.free.length := List.lt_length_right_of_zip hlt
  have hls : i < cfg.sizes.length := List.lt_length_left_of_zip hlt
  rw [List.getElem_zip, chunkFits_iff] at hp
  refine ⟨hls, hlf, ⟨?_, ?_, ?_⟩⟩
  · rw [getD_eq_getElem _ _ hls]
    exact hp.1
  · rw [getD_eq_getElem _ _ hlf]
    exact hp.2
  · intro j hj hcon
    have hjz : j < (cfg.sizes.zip st.free).length := Nat.lt_trans hj hlt
    have := hmin j hj
    rw [List.getElem_zip, chunkFits_iff] at this
    apply this
    constructor
    · rw [← getD_eq_getElem _ _ (List.lt_length_left_of_zip hjz)]
      exact hcon.1
    · rw [← getD_eq_getElem _ _ (List.lt_length_right_of_zip hjz)]
      exact hcon.2

theorem findFit_none_iff (cfg : HeapCfg) (st : HeapSt) (size : Nat) :
    findFit cfg st size = none ↔ ¬Satisfiable cfg st size := by
  rw [findFit, List.findIdx?_eq_none_iff]
  constructor
  · rintro h ⟨i, hi, hs, hf⟩
    have hif : i < st.free.length := lt_length_of_getD_pos _ _ hf
    have hzip : i < (cfg.sizes.zip st.free).length := by
      rw [List.length_zip]
      exact Nat.lt_min.mpr ⟨hi, hif⟩
    have hx := h ((cfg.sizes.zip st.free)[i]) (List.getElem_mem hzip)
    rw [List.getElem_zip] at hx
    rw [getD_eq_getElem _ _ hi] at hs
    rw [getD_eq_getElem _ _ hif] at hf
    rw [(Bool.not_eq_true _).symm.to_iff] at hx
    exact hx ((chunkFits_iff _ _).mpr ⟨hs, hf⟩)
  · intro h x hx
    rcases List.mem_iff_getElem.mp hx with ⟨j, hj, rfl⟩
    have hjs : j < cfg.sizes.length := List.lt_length_left_of_zip hj
    have hjf : j < st.free.length := List.lt_length_right_of_zip hj
    rw [List.getElem_zip]
    rw [Bool.eq_false_iff]
    intro hfit
    rw [chunkFits_iff] at hfit
    apply h
    refine ⟨j, hjs, ?_, ?_⟩
    · rw [getD_eq_getElem _ _ hjs]
      exact hfit.1
    · rw [getD_eq_getElem _ _ hjf]
      exact hfit.2

theorem findFit_some_satisfiable (cfg : HeapCfg) (st : HeapSt) (size i : Nat)
    (h : findFit cfg st size = some i) : Satisfiable cfg st size := by
  obtain ⟨hls, _, hfit, hfree, _⟩ := findFit_some cfg st size i h
  exact ⟨i, hls, hfit, hfree⟩

theorem findFit_single_pos (s sz f a : Nat) (hsz : sz ≤ s) (hf : 0 < f) :
    findFit ⟨[s]⟩ ⟨[f], [a]⟩ sz = some 0 := by
  simp [findFit, List.findIdx?_cons, chunkFits, hsz, hf]

theorem findFit_single_zero (s sz a : Nat) :
    findFit ⟨[s]⟩ ⟨[0], [a]⟩ sz = none := by
  simp [findFit, List.findIdx?_cons, chunkFits]

theorem allocRepeat_single (N s sz : Nat) (hsz : sz ≤ s) :
    ∀ k, k ≤ N → allocRepeat ⟨[s]⟩ id sz ⟨[N], [0]⟩ k = ⟨[N - k], [k]⟩ := by
  intro k
  induction k with
  | zero => intro _; simp [allocRepeat]
  | succ k ih =>
    intro hk
    have hk' : k ≤ N := Nat.le_of_succ_le hk
    rw [allocRepeat, ih hk']
    have hpos : 0 < N - k := by omega
    rw [heap_getChunk, findFit_single_pos s sz (N - k) k hsz hpos]
    simp only [takeChunk]
    have hsub : N - k - 1 = N - (k + 1) := by omega
    simp [List.getD, hsub]

/-- Claim C2: for every requested size within the supported range,
`heap_getChunk` on success returns a zero-initialized chunk whose class size
is at least the requested size, taken from the smallest size class that
fits and has a free chunk (in the heap state the chunk was drawn from); if
the request is not satisfiable from the current free lists it invokes the
collector exactly once and retries (`gcRuns = 1`, and `gcRuns = 0`
otherwise); it fails with `OUT_OF_MEMORY` if and only if the request is
still unsatisfiable after that one collection.  In particular, with a
single size class of exactly `N` chunks and a collection that frees nothing
(`id`), the first `N` requests succeed and the `(N+1)`-th fails with
`OUT_OF_MEMORY` after running the collector once. -/
theorem heap_getChunk_contract :
    (∀ (cfg : HeapCfg) (collect : HeapSt → HeapSt) (st : HeapSt) (size : Nat),
      (∀ ch, (heap_getChunk cfg collect st size).chunk = some ch →
        ch.bytes = List.replicate (cfg.sizes.getD ch.cls 0) 0 ∧
        size ≤ cfg.sizes.getD ch.cls 0 ∧
        (((heap_getChunk cfg collect st size).gcRuns = 0 ∧
            SmallestFit cfg st size ch.cls) ∨
          ((heap_getChunk cfg collect st size).gcRuns = 1 ∧
            SmallestFit cfg (collect st) size ch.cls))) ∧
      (Satisfiable cfg st size → (heap_getChunk cfg collect st size).gcRuns = 0) ∧
      (¬Satisfiable cfg st size → (heap_getChunk cfg collect st size).gcRuns = 1) ∧
      ((heap_getChunk cfg collect st size).status = .OUT_OF_MEMORY ↔
        ¬Satisfiable cfg st size ∧ ¬Satisfiable cfg (collect st) size)) ∧
    (∀ N s sz : Nat, sz ≤ s →
      (∀ k, k < N →
        (heap_getChunk ⟨[s]⟩ id (allocRepeat ⟨[s]⟩ id sz ⟨[N], [0]⟩ k) sz).status = .OK) ∧
      (heap_getChunk ⟨[s]⟩ id (allocRepeat ⟨[s]⟩ id sz ⟨[N], [0]⟩ N) sz).status =
        .OUT_OF_MEMORY ∧
      (heap_getChunk ⟨[s]⟩ id (allocRepeat ⟨[s]⟩ id sz ⟨[N], [0]⟩ N) sz).gcRuns = 1) := by
  constructor
  · intro cfg collect st size
    rcases h1 : findFit cfg st size with _ | i
    · have hns1 : ¬Satisfiable cfg st size := (findFit_none_iff cfg st size).mp h1
      rcases h2 : findFit cfg (collect st) size with _ | i
      · have hns2 : ¬Satisfiable cfg (collect st) size :=
          (findFit_none_iff cfg (collect st) size).mp h2
        rw [heap_getChunk, h1, h2]
        refine ⟨?_, ?_, ?_, ?_⟩
        · intro ch hch
          simp at hch
        · intro hs
          exact absurd hs hns1
        · intro _
          rfl
        · simp [hns1, hns2]
      · have hs2 := findFit_some cfg (collect st) size i h2
        rw [heap_getChunk, h1, h2]
        refine ⟨?_, ?_, ?_, ?_⟩
        · intro ch hch
          simp only [Option.some.injEq] at hch
          subst hch
          exact ⟨rfl, hs2.2.2.1, Or.inr ⟨rfl, hs2.2.2⟩⟩
        · intro hs
          exact absurd hs hns1
        · intro _
          rfl
        · constructor
          · intro hcon
            cases hcon
          · rintro ⟨_, hcon⟩
            exact absurd (findFit_some_satisfiable cfg (collect st) size i h2) hcon
    · have hs1 := findFit_some cfg st size i h1
      rw [heap_getChunk, h1]
      refine ⟨?_, ?_, ?_, ?_⟩
      · intro ch hch
        simp only [Option.some.injEq] at hch
        subst hch
        exact ⟨rfl, hs1.2.2.1, Or.inl ⟨rfl, hs1.2.2⟩⟩
      · intro _
        rfl
      · intro hns
        exact absurd (findFit_some_satisfiable cfg st size i h1) hns
      · constructor
        · intro hcon
          cases hcon
        · rintro ⟨hcon, _⟩
          exact absurd (findFit_some_satisfiable cfg st size i h1) hcon
  · intro N s sz hsz
    refine ⟨?_, ?_, ?_⟩
    · intro k hk
      rw [allocRepeat_single N s sz hsz k (Nat.le_of_lt hk)]
      rw [heap_getChunk, findFit_single_pos s sz (N - k) k hsz (by omega)]
    · rw [allocRepeat_single N s sz hsz N (Nat.le_refl N), Nat.sub_self]
      rw [heap_getChunk, findFit_single_zero s sz N]
      simp only [id]
      rw [findFit_single_zero s sz N]
    · rw [allocRepeat_single N s sz hsz N (Nat.le_refl N), Nat.sub_self]
      rw [heap_getChunk, findFit_single_zero s sz N]
      simp only [id]
      rw [findFit_single_zero s sz N]

/-- Concrete instantiation of the allocator contract: with one size class of
size 4 holding 3 chunks and a collection that frees nothing, a request of 2
bytes is satisfiable and triggers no collection, and the 4th request fails
with `OUT_OF_MEMORY`. -/
theorem heap_getChunk_contract_witness :
    (2 : Nat) ≤ 4 ∧
      (heap_getChunk ⟨[4]⟩ id (allocRepeat ⟨[4]⟩ id 2 ⟨[3], [0]⟩ 3) 2).status =
        .OUT_OF_MEMORY ∧
      (heap_getChunk ⟨[4]⟩ id ⟨[3], [0]⟩ 2).gcRuns = 0 := by
  refine ⟨by decide, (heap_getChunk_contract.2 3 4 2 (by decide)).2.1, ?_⟩
  exact (heap_getChunk_contract.1 ⟨[4]⟩ id ⟨[3], [0]⟩ 2).2.1
    ⟨0, by decide, by decide, by decide⟩

theorem getD_map_range (f : Nat → Nat) (n i : Nat) :
    ((List.range n).map f).getD i 0 = if i < n then f i else 0 := by
  by_cases h : i < n
  · simp [List.getD_eq_getElem?_getD, List.getElem?_range h, h]
  · rw [List.getD_eq_getElem?_getD, List.getElem?_eq_none]
    · simp [h]
    · simpa using Nat.le_of_not_lt h

theorem getD_set_self (l : List Nat) (i v : Nat) (h : i < l.length) :
    (l.set i v).getD i 0 = v := by
  simp [List.getD_eq_getElem?_getD, List.getElem?_set, h]

theorem getD_set_ne (l : List Nat) (i j v : Nat) (h : i ≠ j) :
    (l.set i v).getD j 0 = l.getD j 0 := by
  simp [List.getD_eq_getElem?_getD, List.getElem?_set, h]

theorem takeChunk_total (st : HeapSt) (i : Nat)
    (hlen : st.free.length = st.alloc.length) (hfree : 0 < st.free.getD i 0)
    (j : Nat) :
    (takeChunk st i).free.getD j 0 + (takeChunk st i).alloc.getD j 0 =
      st.free.getD j 0 + st.alloc.getD j 0 := by
  have hif : i < st.free.length := lt_length_of_getD_pos _ _ hfree
  have hia : i < st.alloc.length := hlen ▸ hif
  by_cases h : i = j
  · subst h
    rw [takeChunk]
    simp only [getD_set_self _ _ _ hif, getD_set_self _ _ _ hia]
    omega
  · rw [takeChunk]
    simp only [getD_set_ne _ _ _ _ h, getD_set_ne _ _ _ _ h]

theorem takeChunk_lengths (st : HeapSt) (i : Nat) :
    (takeChunk st i).free.length = st.free.length ∧
      (takeChunk st i).alloc.length = st.alloc.length := by
  simp [takeChunk]

theorem gcCollect_total (reclaim : List Nat) (st : HeapSt)
    (hlen : st.free.length = st.alloc.length) (j : Nat) :
    (gcCollect reclaim st).free.getD j 0 + (gcCollect reclaim st).alloc.getD j 0 =
      st.free.getD j 0 + st.alloc.getD j 0 := by
  rw [gcCollect]
  simp only [getD_map_range]
  by_cases h : j < st.free.length
  · rw [if_pos h, if_pos (hlen ▸ h)]
    have := Nat.min_le_right (reclaim.getD j 0) (st.alloc.getD j 0)
    omega
  · rw [if_neg h, if_neg (fun hc => h (hlen ▸ hc))]
    have h1 : st.free.getD j 0 = 0 := by
      rw [List.getD_eq_getElem?_getD, List.getElem?_eq_none (Nat.le_of_not_lt h)]
      rfl
    have h2 : st.alloc.getD j 0 = 0 := by
      rw [List.getD_eq_getElem?_getD,
        List.getElem?_eq_none (Nat.le_of_not_lt (fun hc => h (hlen ▸ hc)))]
      rfl
    omega

theorem gcCollect_lengths (reclaim : List Nat) (st : HeapSt) :
    (gcCollect reclaim st).free.length = st.free.length ∧
      (gcCollect reclaim st).alloc.length = st.alloc.length := by
  simp [gcCollect]

theorem heapStep_total (cfg : HeapCfg) (st : HeapSt) (op : HeapOp)
    (hlen : st.free.length = st.alloc.length) :
    ((heapStep cfg st op).free.length = (heapStep cfg st op).alloc.length) ∧
      ∀ j, (heapStep cfg st op).free.getD j 0 + (heapStep cfg st op).alloc.getD j 0 =
        st.free.getD j 0 + st.alloc.getD j 0 := by
  cases op with
  | request size reclaim =>
    rw [heapStep]
    rcases h1 : findFit cfg st size with _ | i
    · rcases h2 : findFit cfg (gcCollect reclaim st) size with _ | i
      · rw [heap_getChunk, h1, h2]
        refine ⟨?_, ?_⟩
        · rw [(gcCollect_lengths reclaim st).1, (gcCollect_lengths reclaim st).2]
          exact hlen
        · exact gcCollect_total reclaim st hlen
      · rw [heap_getChunk, h1, h2]
        have hg := gcCollect_lengths reclaim st
        have hglen : (gcCollect reclaim st).free.length =
            (gcCollect reclaim st).alloc.length := by
          rw [hg.1, hg.2]
          exact hlen
        have hfree := (findFit_some cfg (gcCollect reclaim st) size i h2).2.2.2.1
        refine ⟨?_, ?_⟩
        · have ht := takeChunk_lengths (gcCollect reclaim st) i
          rw [ht.1, ht.2]
          exact hglen
        · intro j
          rw [takeChunk_total (gcCollect reclaim st) i hglen hfree j]
          exact gcCollect_total reclaim st hlen j
    · rw [heap_getChunk, h1]
      have hfree := (findFit_some cfg st size i h1).2.2.2.1
      refine ⟨?_, ?_⟩
      · have ht := takeChunk_lengths st i
        rw [ht.1, ht.2]
        exact hlen
      · exact takeChunk_total st i hlen hfree
  | release cls =>
    rw [heapStep, heap_freeChunk]
    by_cases h : 0 < st.alloc.getD cls 0
    · rw [if_pos h]
      have hia : cls < st.alloc.length := lt_length_of_getD_pos _ _ h
      have hif : cls < st.free.length := hlen ▸ hia
      refine ⟨by simpa using hlen, ?_⟩
      intro j
      by_cases hj : cls = j
      · subst hj
        simp only [getD_set_self _ _ _ hif, getD_set_self _ _ _ hia]
        omega
      · simp only [getD_set_ne _ _ _ _ hj]
    · rw [if_neg h]
      exact ⟨hlen, fun j => rfl⟩

theorem heapRun_total (cfg : HeapCfg) (ops : List HeapOp) :
    ∀ st : HeapSt, st.free.length = st.alloc.length → ∀ j,
      (heapRun cfg st ops).free.getD j 0 + (heapRun cfg st ops).alloc.getD j 0 =
        st.free.getD j 0 + st.alloc.getD j 0 := by
  induction ops with
  | nil => intro st _ j; rfl
  | cons op ops ih =>
    intro st hlen j
    have hstep := heapStep_total cfg st op hlen
    rw [heapRun, ih (heapStep cfg st op) hstep.1 j, hstep.2 j]

/-- Claim C9: for every sequence of allocate and release operations (each
allocation possibly triggering a collection), the per-class total of free
plus allocated chunks stays equal to the chunk count established at heap
initialization — no chunk is created, duplicated, or lost. -/
theorem heap_chunk_conservation (cfg : HeapCfg) (free0 : List Nat)
    (ops : List HeapOp) (j : Nat) :
    (heapRun cfg ⟨free0, List.replicate free0.length 0⟩ ops).free.getD j 0 +
      (heapRun cfg ⟨free0, List.replicate free0.length 0⟩ ops).alloc.getD j 0 =
      free0.getD j 0 := by
  have h := heapRun_total cfg ops ⟨free0, List.replicate free0.length 0⟩
    (by simp) j
  rw [h]
  have : (List.replicate free0.length (0 : Nat)).getD j 0 = 0 := by
    rw [List.getD_eq_getElem?_getD, List.getElem?_replicate]
    by_cases hj : j < free0.length <;> simp [hj]
  simp [this]

theorem chainFrom_mono (st : Store) :
    ∀ (f f' : Nat) (y : Option Nat) (l : List Nat), chainFrom st f y = some l →
      f ≤ f' → chainFrom st f' y = some l := by
  intro f
  induction f with
  | zero =>
    intro f' y l h _
    cases y with
    | none =>
      simpa [chainFrom] using h
    | some a => simp [chainFrom] at h
  | succ f ih =>
    intro f' y l h hf
    cases y with
    | none =>
      simpa [chainFrom] using h
    | some a =>
      rcases Nat.exists_eq_add_of_le hf with ⟨d, rfl⟩
      rw [chainFrom] at h
      split at h
      · exact absurd h (by simp)
      · rename_i s hfind
        rcases Option.map_eq_some'.mp h with ⟨rest, hrec, hl⟩
        have hstep : f + 1 + d = (f + d) + 1 := by omega
        rw [hstep]
        simp only [chainFrom, hfind,
          ih (f + d) s.next rest hrec (Nat.le_add_right f d), Option.map_some']
        simp [hl]

theorem chainFrom_none_start (st : Store) (f : Nat) (l : List Nat)
    (h : chainFrom st f none = some l) : l = [] := by
  simpa [chainFrom] using h.symm

theorem chainFrom_cons (st : Store) (f : Nat) (a : Nat) (l : List Nat)
    (h : chainFrom st f (some a) = some l) :
    ∃ f' s rest, f = f' + 1 ∧ st.find a = some s ∧
      chainFrom st f' s.next = some rest ∧ l = a :: rest := by
  cases f with
  | zero => simp [chainFrom] at h
  | succ f =>
    rw [chainFrom] at h
    split at h
    · exact absurd h (by simp)
    · rename_i s hfind
      rcases Option.map_eq_some'.mp h with ⟨rest, hrec, hl⟩
      exact ⟨f, s, rest, rfl, hfind, hrec, hl.symm⟩

theorem chainFrom_start (st : Store) (f : Nat) (y : Option Nat)
    (a : Nat) (l : List Nat) (h : chainFrom st f y = some (a :: l)) :
    y = some a := by
  cases y with
  | none =>
    have := chainFrom_none_start st f (a :: l) h
    simp at this
  | some b =>
    rcases chainFrom_cons st f b (a :: l) h with ⟨f', s, rest, _, _, _, heq⟩
    simp only [List.cons.injEq] at heq
    rw [heq.1]

theorem allocSeg_spec (st : Store) (a : Nat) (st1 : Store)
    (h : st.allocSeg = some (a, st1)) :
    a = st.nextAddr ∧ st1.segs.length = st.segs.length + 1 ∧
      st1.nextAddr = st.nextAddr + 1 ∧ st1.avail = st.avail - 1 ∧ 0 < st.avail ∧
      ∀ b, st1.find b = if b = st.nextAddr then some newSegment else st.find b := by
  rw [Store.allocSeg] at h
  split at h
  · exact absurd h (by simp)
  · rename_i hav
    simp only [Option.some.injEq, Prod.mk.injEq] at h
    obtain ⟨rfl, rfl⟩ := h
    refine ⟨rfl, by simp, rfl, rfl, Nat.pos_of_ne_zero hav, ?_⟩
    intro b
    by_cases hb : b = st.nextAddr
    · subst hb
      simp [Store.find, List.find?_cons]
    · simp only [Store.find, List.find?_cons]
      have hne : (st.nextAddr == b) = false := by
        simp [Ne.symm hb]
      rw [hne]
      simp [hb]

theorem find_modifySeg (st : Store) (a : Nat) (f : Segment → Segment) (b : Nat) :
    (st.modifySeg a f).find b =
      if b = a then (st.find b).map f else st.find b := by
  simp only [Store.modifySeg, Store.find]
  induction st.segs with
  | nil => simp
  | cons p rest ih =>
    by_cases hpb : p.1 = b
    · by_cases hpa : p.1 = a
      · have hba : b = a := hpa ▸ hpb.symm ▸ rfl
        simp [List.find?_cons, hpa, hpb, hba]
      · have hba : ¬b = a := fun hc => hpa (hpb.trans hc)
        simp [List.find?_cons, hpa, hpb, hba]
    · by_cases hpa : p.1 = a
      · have h1 : ((p.1, f p.2).1 == b) = false := by simp [hpb]
        have h2 : (p.1 == b) = false := by simp [hpb]
        simp only [List.map_cons, if_pos (by simp [hpa] : (p.1 == a) = true),
          List.find?_cons, h1, h2]
        exact ih
      · have h2 : (p.1 == b) = false := by simp [hpb]
        simp only [List.map_cons, if_neg (by simp [hpa] : ¬(p.1 == a) = true),
          List.find?_cons, h2]
        exact ih

theorem modifySeg_lengths (st : Store) (a : Nat) (f : Segment → Segment) :
    (st.modifySeg a f).segs.length = st.segs.length ∧
      (st.modifySeg a f).nextAddr = st.nextAddr ∧
      (st.modifySeg a f).avail = st.avail := by
  simp [Store.modifySeg]

theorem chainFrom_congr (st st' : Store)
    (h : ∀ x, (st'.find x).map Segment.next = (st.find x).map Segment.next) :
    ∀ (f : Nat) (y : Option Nat), chainFrom st' f y = chainFrom st f y := by
  intro f
  induction f with
  | zero => intro y; cases y <;> rfl
  | succ f ih =>
    intro y
    cases y with
    | none => rfl
    | some a =>
      have hx := h a
      rcases hfind : st.find a with _ | s <;>
        rcases hfind' : st'.find a with _ | s'
      · simp [chainFrom, hfind, hfind']
      · rw [hfind, hfind'] at hx
        simp at hx
      · rw [hfind, hfind'] at hx
        simp at hx
      · rw [hfind, hfind'] at hx
        simp only [Option.map_some', Option.some.injEq] at hx
        simp [chainFrom, hfind, hfind', hx, ih s.next]

theorem walkSeg_zero (st : Store) (y : Option Nat) : walkSeg st y 0 = y := by
  cases y <;> rfl

theorem walkSeg_none (st : Store) (k : Nat) : walkSeg st none k = none := by
  cases k <;> rfl

theorem walkSeg_add (st : Store) :
    ∀ (m k : Nat) (y : Option Nat),
      walkSeg st y (m + k) = walkSeg st (walkSeg st y m) k := by
  intro m
  induction m with
  | zero =>
    intro k y
    rw [Nat.zero_add, walkSeg_zero]
  | succ m ih =>
    intro k y
    cases y with
    | none => rw [walkSeg_none, walkSeg_none, walkSeg_none]
    | some a =>
      have hstep : m + 1 + k = (m + k) + 1 := by omega
      rw [hstep]
      rcases hfind : st.find a with _ | s
      · simp [walkSeg, hfind]
      · simp only [walkSeg, hfind]
        exact ih k s.next

theorem chainFrom_walk (st : Store) :
    ∀ (addrs : List Nat) (f : Nat) (y : Option Nat),
      chainFrom st f y = some addrs →
      (∀ k, k < addrs.length → walkSeg st y k = some (addrs.getD k 0)) ∧
      (∀ k, addrs.length ≤ k → walkSeg st y k = none) := by
  intro addrs
  induction addrs with
  | nil =>
    intro f y h
    cases y with
    | none => exact ⟨fun k hk => by simp at hk, fun k _ => walkSeg_none st k⟩
    | some a =>
      rcases chainFrom_cons st f a [] h with ⟨_, _, _, _, _, _, heq⟩
      simp at heq
  | cons a rest ih =>
    intro f y h
    have hy := chainFrom_start st f y a rest h
    subst hy
    rcases chainFrom_cons st f a (a :: rest) h with
      ⟨f', s, rest', _, hfind, hrec, heq⟩
    simp only [List.cons.injEq, true_and] at heq
    subst heq
    refine ⟨?_, ?_⟩
    · intro k hk
      cases k with
      | zero => rfl
      | succ k =>
        simp only [walkSeg, hfind]
        exact (ih f' s.next hrec).1 k (by simpa using hk)
    · intro k hk
      cases k with
      | zero => simp at hk
      | succ k =>
        simp only [walkSeg, hfind]
        exact (ih f' s.next hrec).2 k (by simpa using hk)

theorem chainFrom_snoc (st st' : Store) (n la : Nat)
    (hn : ∃ sn, st'.find n = some sn ∧ sn.next = none)
    (hla : ∀ s, st.find la = some s →
      ∃ s', st'.find la = some s' ∧ s'.next = some n)
    (hother : ∀ x, x ≠ la → x ≠ n →
      (st'.find x).map Segment.next = (st.find x).map Segment.next) :
    ∀ (addrs : List Nat) (f : Nat) (y : Option Nat),
      chainFrom st f y = some addrs → addrs ≠ [] →
      addrs.getLast? = some la → addrs.Nodup → n ∉ addrs →
      chainFrom st' (f + 1) y = some (addrs ++ [n]) := by
  intro addrs
  induction addrs with
  | nil =>
    intro f y _ hne _ _ _
    exact absurd rfl hne
  | cons a rest ih =>
    intro f y h _ hlast hnd hnotin
    have hy := chainFrom_start st f y a rest h
    subst hy
    rcases chainFrom_cons st f a (a :: rest) h with
      ⟨f', s, rest', hf, hfind, hrec, heq⟩
    simp only [List.cons.injEq, true_and] at heq
    subst heq
    subst hf
    rcases hn with ⟨sn, hfindn, hnextn⟩
    cases rest with
    | nil =>
      have hala : a = la := by
        simpa using hlast
      subst hala
      rcases hla s hfind with ⟨s', hfind', hnext'⟩
      simp [chainFrom, hfind', hnext', hfindn, hnextn]
    | cons b rest2 =>
      have hlast' : (b :: rest2).getLast? = some la := by
        rwa [List.getLast?_cons_cons] at hlast
      have hmem_la : la ∈ b :: rest2 := by
        cases hgl : (b :: rest2).getLast? with
        | none => simp [hgl] at hlast'
        | some c =>
          rw [hgl] at hlast'
          obtain rfl : c = la := by simpa using hlast'
          exact List.mem_of_getLast?_eq_some hgl
      have hana : a ∉ b :: rest2 := (List.nodup_cons.mp hnd).1
      have hala : a ≠ la := fun hc => hana (hc ▸ hmem_la)
      have hann : a ≠ n := fun hc => hnotin (hc ▸ List.mem_cons_self _ _)
      have hx := hother a hala hann
      rw [hfind] at hx
      rcases hfind' : st'.find a with _ | s'
      · rw [hfind'] at hx
        simp at hx
      · rw [hfind'] at hx
        simp only [Option.map_some', Option.some.injEq] at hx
        have hrec' := ih f' s.next hrec (by simp) hlast'
          (List.nodup_cons.mp hnd).2
          (fun hc => hnotin (List.mem_cons_of_mem _ hc))
        simp [chainFrom, hfind', hx, hrec']

theorem segFilled_newSegment : SegFilled newSegment 0 :=
  ⟨[], rfl, by simp [newSegment]⟩

theorem segItems_of_filled (s : Segment) (k : Nat) (h : SegFilled s k) :
    segItems s = h.choose := by
  obtain ⟨hlen, hval⟩ := h.choose_spec
  rw [segItems]
  conv_lhs => rw [hval]
  rw [List.filterMap_append]
  have h1 : (h.choose.map some).filterMap id = h.choose := by
    rw [List.filterMap_map]
    exact List.filterMap_some h.choose
  have h2 : (List.replicate (SEGLIST_OBJS_PER_SEG - k) (none : Option Obj)).filterMap id = [] := by
    simp [List.filterMap_replicate]
  rw [h1, h2, List.append_nil]

theorem segFilled_items (s : Segment) (k : Nat) (h : SegFilled s k) :
    (segItems s).length = k ∧
      s.s_val = (segItems s).map some ++
        List.replicate (SEGLIST_OBJS_PER_SEG - k) none := by
  obtain ⟨hlen, hval⟩ := h.choose_spec
  rw [segItems_of_filled s k h]
  exact ⟨hlen, hval⟩

theorem segFilled_setSlot (s : Segment) (k : Nat) (obj : Obj)
    (h : SegFilled s k) (hk : k < SEGLIST_OBJS_PER_SEG) :
    SegFilled (s.setSlot k obj) (k + 1) ∧
      segItems (s.setSlot k obj) = segItems s ++ [obj] := by
  obtain ⟨hlen, hval⟩ := segFilled_items s k h
  have hrep : List.replicate (SEGLIST_OBJS_PER_SEG - k) (none : Option Obj) =
      none :: List.replicate (SEGLIST_OBJS_PER_SEG - (k + 1)) none := by
    have : SEGLIST_OBJS_PER_SEG - k = (SEGLIST_OBJS_PER_SEG - (k + 1)) + 1 := by
      omega
    rw [this, List.replicate_succ]
  have hmaplen : ((segItems s).map some).length = k := by
    simpa using hlen
  have hnewval : (s.setSlot k obj).s_val =
      ((segItems s ++ [obj]).map some) ++
        List.replicate (SEGLIST_OBJS_PER_SEG - (k + 1)) none := by
    rw [Segment.setSlot]
    rw [hval, hrep, List.set_append_right _ _ (by omega : ((segItems s).map some).length ≤ k)]
    rw [hmaplen, Nat.sub_self]
    simp
  refine ⟨⟨segItems s ++ [obj], by simpa using hlen, hnewval⟩, ?_⟩
  rw [segItems, hnewval, List.filterMap_append]
  have h1 : ((segItems s ++ [obj]).map some).filterMap id = segItems s ++ [obj] := by
    rw [List.filterMap_map]
    exact List.filterMap_some _
  have h2 : (List.replicate (SEGLIST_OBJS_PER_SEG - (k + 1)) (none : Option Obj)).filterMap id = [] := by
    simp [List.filterMap_replicate]
  rw [h1, h2, List.append_nil]

theorem segFilled_getD (s : Segment) (k : Nat) (h : SegFilled s k)
    (hk : k ≤ SEGLIST_OBJS_PER_SEG) (ix : Nat) :
    s.s_val.getD ix none =
      if ix < k then some ((segItems s).getD ix 0) else none := by
  obtain ⟨hlen, hval⟩ := segFilled_items s k h
  have hmaplen : ((segItems s).map some).length = k := by
    simpa using hlen
  by_cases hix : ix < k
  · rw [if_pos hix, List.getD_eq_getElem?_getD, hval,
      List.getElem?_append_left (by omega), List.getElem?_map]
    have : ix < (segItems s).length := by omega
    rw [List.getElem?_eq_getElem this]
    simp [List.getD_eq_getElem?_getD, List.getElem?_eq_getElem this]
  · rw [if_neg hix, List.getD_eq_getElem?_getD, hval,
      List.getElem?_append_right (by omega)]
    rw [List.getElem?_replicate]
    split <;> rfl

theorem segFilled_s_val_length (s : Segment) (k : Nat) (h : SegFilled s k)
    (hk : k ≤ SEGLIST_OBJS_PER_SEG) : s.s_val.length = SEGLIST_OBJS_PER_SEG := by
  obtain ⟨hlen, hval⟩ := segFilled_items s k h
  rw [hval]
  simp
  omega

theorem find_lt_nextAddr (st : Store) (a : Nat) (s : Segment)
    (hinv : StoreInv st) (h : st.find a = some s) : a < st.nextAddr := by
  rw [Store.find] at h
  rcases hf : st.segs.find? (fun p => p.1 == a) with _ | p
  · rw [hf] at h
    simp at h
  · have hmem := List.mem_of_find?_eq_some hf
    have hpred := List.find?_some hf
    have : p.1 = a := by simpa using hpred
    exact this ▸ hinv p hmem

theorem chainFrom_find (st : Store) :
    ∀ (addrs : List Nat) (f : Nat) (y : Option Nat),
      chainFrom st f y = some addrs → ∀ x ∈ addrs, ∃ s, st.find x = some s := by
  intro addrs
  induction addrs with
  | nil => intro f y _ x hx; simp at hx
  | cons a rest ih =>
    intro f y h x hx
    have hy := chainFrom_start st f y a rest h
    subst hy
    rcases chainFrom_cons st f a (a :: rest) h with
      ⟨f', s, rest', _, hfind, hrec, heq⟩
    simp only [List.cons.injEq, true_and] at heq
    subst heq
    rcases List.mem_cons.mp hx with h' | h'
    · exact ⟨s, h' ▸ hfind⟩
    · exact ih f' s.next hrec x h'

theorem flatMap_congr {α β : Type} (l : List α) (f g : α → List β)
    (h : ∀ x ∈ l, f x = g x) : l.flatMap f = l.flatMap g := by
  induction l with
  | nil => rfl
  | cons a rest ih =>
    simp only [List.flatMap_cons]
    rw [h a (List.mem_cons_self _ _), ih fun x hx => h x (List.mem_cons_of_mem a hx)]

theorem segFilled_of_s_val_eq (s t : Segment) (k : Nat)
    (h : t.s_val = s.s_val) (hs : SegFilled s k) : SegFilled t k := by
  obtain ⟨objs, hlen, hval⟩ := hs
  exact ⟨objs, hlen, h ▸ hval⟩

theorem segItems_of_s_val_eq (s t : Segment) (h : t.s_val = s.s_val) :
    segItems t = segItems s := by
  rw [segItems, segItems, h]

theorem storeInv_modifySeg (st : Store) (a : Nat) (f : Segment → Segment)
    (h : StoreInv st) : StoreInv (st.modifySeg a f) := by
  intro p hp
  simp only [Store.modifySeg, List.mem_map] at hp
  rcases hp with ⟨q, hq, heq⟩
  have := h q hq
  by_cases hqa : (q.1 == a) = true
  · rw [if_pos hqa] at heq
    simp only [Store.modifySeg]
    rw [← heq]
    exact this
  · rw [if_neg hqa] at heq
    simp only [Store.modifySeg]
    rw [← heq]
    exact this

theorem storeInv_allocSeg (st : Store) (a : Nat) (st1 : Store)
    (hinv : StoreInv st) (h : st.allocSeg = some (a, st1)) : StoreInv st1 := by
  obtain ⟨rfl, _, hnext, _, _, _⟩ := allocSeg_spec st a st1 h
  rw [Store.allocSeg] at h
  split at h
  · exact absurd h (by simp)
  · simp only [Option.some.injEq, Prod.mk.injEq] at h
    obtain ⟨_, rfl⟩ := h
    intro p hp
    rcases List.mem_cons.mp hp with h' | h'
    · subst h'
      simp
    · have := hinv p h'
      simp
      omega

theorem getLast?_isSome_of_ne_nil {l : List Nat} (h : l ≠ []) :
    ∃ x, l.getLast? = some x := by
  cases l with
  | nil => exact absurd rfl h
  | cons a rest =>
    rcases hgl : (a :: rest).getLast? with _ | x
    · rw [List.getLast?_eq_getLast _ (by simp)] at hgl
      simp at hgl
    · exact ⟨x, rfl⟩

theorem chainFrom_none (st : Store) (f : Nat) : chainFrom st f none = some [] := by
  cases f <;> rfl

theorem segItems_newSegment : segItems newSegment = [] := by
  simp [segItems, newSegment, List.filterMap_replicate]

theorem append_case_first (st : Store) (sl : Seglist) (obj : Obj)
    (hinv : SeglistInv st sl) (hlseg : sl.sl_lastseg = none)
    (a : Nat) (st1 : Store) (halloc : st.allocSeg = some (a, st1)) :
    SeglistInv (st1.modifySeg a (fun s => s.setSlot 0 obj)) ⟨some a, some a, 1⟩ ∧
      seglistItems (st1.modifySeg a (fun s => s.setSlot 0 obj))
          ⟨some a, some a, 1⟩ =
        seglistItems st sl ++ [obj] ∧
      seglistChain (st1.modifySeg a (fun s => s.setSlot 0 obj))
          ⟨some a, some a, 1⟩ =
        (seglistChain st sl).map (fun l => l ++ [st.nextAddr]) ∧
      (st1.modifySeg a (fun s => s.setSlot 0 obj)).find st.nextAddr =
        some (newSegment.setSlot 0 obj) := by
  obtain ⟨hstore, addrs, hchain, hnodup, hempty, hnonempty, hfull, hlast⟩ := hinv
  have haddrs : addrs = [] := by
    by_contra hne
    obtain ⟨hlseg', _, _⟩ := hnonempty hne
    rw [hlseg] at hlseg'
    obtain ⟨x, hx⟩ := getLast?_isSome_of_ne_nil hne
    rw [hx] at hlseg'
    simp at hlseg'
  subst haddrs
  obtain ⟨hroot, _, _⟩ := hempty rfl
  obtain ⟨rfl, hlen1, hnext1, _, _, hfind1⟩ := allocSeg_spec st a st1 halloc
  have hfindf : ∀ b, (st1.modifySeg st.nextAddr (fun s => s.setSlot 0 obj)).find b =
      if b = st.nextAddr then some (newSegment.setSlot 0 obj) else st.find b := by
    intro b
    rw [find_modifySeg]
    by_cases hb : b = st.nextAddr
    · rw [if_pos hb, if_pos hb, hfind1 b, if_pos hb]
      rfl
    · rw [if_neg hb, if_neg hb, hfind1 b, if_neg hb]
  have hlength : (st1.modifySeg st.nextAddr (fun s => s.setSlot 0 obj)).segs.length =
      st.segs.length + 1 := by
    rw [(modifySeg_lengths st1 _ _).1, hlen1]
  have hsf := segFilled_setSlot newSegment 0 obj segFilled_newSegment
    (by norm_num [SEGLIST_OBJS_PER_SEG])
  have hitems1 : segItems (newSegment.setSlot 0 obj) = [obj] := by
    rw [hsf.2, segItems_newSegment]
    rfl
  have hchainf : seglistChain (st1.modifySeg st.nextAddr (fun s => s.setSlot 0 obj))
      ⟨some st.nextAddr, some st.nextAddr, 1⟩ = some [st.nextAddr] := by
    rw [seglistChain, hlength]
    have hf := hfindf st.nextAddr
    rw [if_pos rfl] at hf
    simp only [chainFrom, hf]
    simp [Segment.setSlot, newSegment, chainFrom_none]
  have holditems : seglistItems st sl = [] := by
    rw [seglistItems, hchain]
    simp
  refine ⟨?_, ?_, ?_, ?_⟩
  · refine ⟨storeInv_modifySeg _ _ _ (storeInv_allocSeg st _ st1 hstore halloc),
      [st.nextAddr], hchainf, by simp, ?_, ?_, ?_, ?_⟩
    · intro h
      simp at h
    · intro _
      refine ⟨by simp, by norm_num, by norm_num [SEGLIST_OBJS_PER_SEG]⟩
    · intro x hx
      simp at hx
    · intro b hb
      simp only [List.getLast?_singleton, Option.some.injEq] at hb
      subst hb
      refine ⟨newSegment.setSlot 0 obj, ?_, ?_⟩
      · rw [hfindf, if_pos rfl]
      · exact hsf.1
  · rw [holditems, seglistItems, hchainf]
    simp only [List.flatMap_cons, List.flatMap_nil, List.append_nil, List.nil_append]
    rw [hfindf, if_pos rfl]
    simpa using hitems1
  · rw [hchainf, hchain]
    rfl
  · rw [hfindf, if_pos rfl]

theorem append_case_grow (st : Store) (sl : Seglist) (obj : Obj)
    (hinv : SeglistInv st sl) (la : Nat) (hlseg : sl.sl_lastseg = some la)
    (hfullidx : sl.sl_lastindx = SEGLIST_OBJS_PER_SEG)
    (a : Nat) (st1 : Store) (halloc : st.allocSeg = some (a, st1)) :
    SeglistInv ((st1.modifySeg la (fun s => ⟨s.s_val, some a⟩)).modifySeg a
        (fun s => s.setSlot 0 obj)) ⟨sl.sl_rootseg, some a, 1⟩ ∧
      seglistItems ((st1.modifySeg la (fun s => ⟨s.s_val, some a⟩)).modifySeg a
          (fun s => s.setSlot 0 obj)) ⟨sl.sl_rootseg, some a, 1⟩ =
        seglistItems st sl ++ [obj] ∧
      seglistChain ((st1.modifySeg la (fun s => ⟨s.s_val, some a⟩)).modifySeg a
          (fun s => s.setSlot 0 obj)) ⟨sl.sl_rootseg, some a, 1⟩ =
        (seglistChain st sl).map (fun l => l ++ [st.nextAddr]) ∧
      ((st1.modifySeg la (fun s => ⟨s.s_val, some a⟩)).modifySeg a
          (fun s => s.setSlot 0 obj)).find st.nextAddr =
        some (newSegment.setSlot 0 obj) := by
  obtain ⟨hstore, addrs, hchain, hnodup, hempty, hnonempty, hfull, hlast⟩ := hinv
  have hne : addrs ≠ [] := by
    intro h
    obtain ⟨_, h2, _⟩ := hempty h
    rw [hlseg] at h2
    simp at h2
  obtain ⟨hlasteq, hge1, hle8⟩ := hnonempty hne
  have hlastaddr : addrs.getLast? = some la := by
    rw [← hlasteq, hlseg]
  obtain ⟨sla, hfindla, hfilledla⟩ := hlast la hlastaddr
  obtain ⟨rfl, hlen1, hnext1, _, _, hfind1⟩ := allocSeg_spec st a st1 halloc
  have hla_lt : la < st.nextAddr := find_lt_nextAddr st la sla hstore hfindla
  have hla_ne : la ≠ st.nextAddr := Nat.ne_of_lt hla_lt
  have hnotin : st.nextAddr ∉ addrs := by
    intro hmem
    obtain ⟨s, hs⟩ := chainFrom_find st addrs _ _ hchain _ hmem
    have := find_lt_nextAddr st _ s hstore hs
    omega
  have hsplit : addrs.dropLast ++ [la] = addrs :=
    List.dropLast_append_getLast? la (Option.mem_def.mpr hlastaddr)
  have hla_not_dl : la ∉ addrs.dropLast := by
    intro hmem
    have hnd := hnodup
    rw [← hsplit, List.nodup_append] at hnd
    exact hnd.2.2 hmem (List.mem_singleton.mpr rfl)
  have hfindf : ∀ b,
      ((st1.modifySeg la (fun s => ⟨s.s_val, some st.nextAddr⟩)).modifySeg
        st.nextAddr (fun s => s.setSlot 0 obj)).find b =
      if b = st.nextAddr then some (newSegment.setSlot 0 obj)
      else if b = la then some ⟨sla.s_val, some st.nextAddr⟩
      else st.find b := by
    intro b
    rw [find_modifySeg, find_modifySeg, hfind1 b]
    by_cases hb : b = st.nextAddr
    · subst hb
      simp [Ne.symm hla_ne]
    · by_cases hbla : b = la
      · subst hbla
        simp [hb, hfindla]
      · simp [hb, hbla]
  have hlenf : ((st1.modifySeg la (fun s => ⟨s.s_val, some st.nextAddr⟩)).modifySeg
      st.nextAddr (fun s => s.setSlot 0 obj)).segs.length = st.segs.length + 1 := by
    rw [(modifySeg_lengths _ _ _).1, (modifySeg_lengths _ _ _).1, hlen1]
  have hfind_n : ((st1.modifySeg la (fun s => ⟨s.s_val, some st.nextAddr⟩)).modifySeg
      st.nextAddr (fun s => s.setSlot 0 obj)).find st.nextAddr =
      some (newSegment.setSlot 0 obj) := by
    rw [hfindf, if_pos rfl]
  have hfind_la : ((st1.modifySeg la (fun s => ⟨s.s_val, some st.nextAddr⟩)).modifySeg
      st.nextAddr (fun s => s.setSlot 0 obj)).find la =
      some ⟨sla.s_val, some st.nextAddr⟩ := by
    rw [hfindf, if_neg hla_ne, if_pos rfl]
  have hfind_other : ∀ x, x ≠ la → x ≠ st.nextAddr →
      ((st1.modifySeg la (fun s => ⟨s.s_val, some st.nextAddr⟩)).modifySeg
        st.nextAddr (fun s => s.setSlot 0 obj)).find x = st.find x := by
    intro x hxla hxn
    rw [hfindf, if_neg hxn, if_neg hxla]
  have hchainres := chainFrom_snoc st
    ((st1.modifySeg la (fun s => ⟨s.s_val, some st.nextAddr⟩)).modifySeg
      st.nextAddr (fun s => s.setSlot 0 obj)) st.nextAddr la
    ⟨newSegment.setSlot 0 obj, hfind_n, rfl⟩
    (fun s hs => ⟨⟨sla.s_val, some st.nextAddr⟩, hfind_la, rfl⟩)
    (fun x hxla hxn => by rw [hfind_other x hxla hxn])
    addrs (st.segs.length + 1) sl.sl_rootseg hchain hne hlastaddr hnodup hnotin
  have hchainf : seglistChain ((st1.modifySeg la
      (fun s => ⟨s.s_val, some st.nextAddr⟩)).modifySeg st.nextAddr
      (fun s => s.setSlot 0 obj)) ⟨sl.sl_rootseg, some st.nextAddr, 1⟩ =
      some (addrs ++ [st.nextAddr]) := by
    rw [seglistChain, hlenf]
    exact hchainres
  have hsf := segFilled_setSlot newSegment 0 obj segFilled_newSegment
    (by norm_num [SEGLIST_OBJS_PER_SEG])
  have hitems1 : segItems (newSegment.setSlot 0 obj) = [obj] := by
    rw [hsf.2, segItems_newSegment]
    rfl
  refine ⟨?_, ?_, ?_, hfind_n⟩
  · refine ⟨storeInv_modifySeg _ _ _ (storeInv_modifySeg _ _ _
      (storeInv_allocSeg st _ st1 hstore halloc)),
      addrs ++ [st.nextAddr], hchainf, ?_, ?_, ?_, ?_, ?_⟩
    · rw [List.nodup_append]
      exact ⟨hnodup, List.nodup_singleton _,
        fun x hx1 hx2 => hnotin ((List.mem_singleton.mp hx2) ▸ hx1)⟩
    · intro h
      simp at h
    · intro _
      refine ⟨?_, by norm_num, by norm_num [SEGLIST_OBJS_PER_SEG]⟩
      rw [List.getLast?_concat]
    · intro x hx
      rw [List.dropLast_concat] at hx
      have hx_cases : x ∈ addrs.dropLast ∨ x = la := by
        rw [← hsplit] at hx
        rcases List.mem_append.mp hx with h' | h'
        · exact Or.inl h'
        · exact Or.inr (List.mem_singleton.mp h')
      rcases hx_cases with hx' | hx'
      · obtain ⟨s, hfinds, hfilled⟩ := hfull x hx'
        have hxla : x ≠ la := fun hc => hla_not_dl (hc ▸ hx')
        have hxn : x ≠ st.nextAddr := by
          intro hc
          exact hnotin (hc ▸ hx)
        exact ⟨s, (hfind_other x hxla hxn) ▸ hfinds, hfilled⟩
      · subst hx'
        refine ⟨⟨sla.s_val, some st.nextAddr⟩, hfind_la, ?_⟩
        exact segFilled_of_s_val_eq sla _ _ rfl (hfullidx ▸ hfilledla)
    · intro b hb
      rw [List.getLast?_concat] at hb
      obtain rfl : st.nextAddr = b := by simpa using hb
      exact ⟨newSegment.setSlot 0 obj, hfind_n, hsf.1⟩
  · rw [seglistItems, seglistItems, hchain, hchainf]
    simp only [List.flatMap_append, List.flatMap_cons, List.flatMap_nil,
      List.append_nil]
    have hcongr : addrs.flatMap (fun x =>
        match ((st1.modifySeg la (fun s => ⟨s.s_val, some st.nextAddr⟩)).modifySeg
          st.nextAddr (fun s => s.setSlot 0 obj)).find x with
        | none => []
        | some s => segItems s) =
        addrs.flatMap (fun x =>
          match st.find x with
          | none => []
          | some s => segItems s) := by
      apply flatMap_congr
      intro x hx
      by_cases hxla : x = la
      · subst hxla
        rw [hfind_la, hfindla]
        exact segItems_of_s_val_eq sla _ rfl
      · have hxn : x ≠ st.nextAddr := fun hc => hnotin (hc ▸ hx)
        rw [hfind_other x hxla hxn]
    rw [hfind_n, hcongr]
    simp [hitems1]
  · rw [hchainf, hchain]
    rfl

theorem append_case_slot (st : Store) (sl : Seglist) (obj : Obj)
    (hinv : SeglistInv st sl) (la : Nat) (hlseg : sl.sl_lastseg = some la)
    (hroot : sl.sl_rootseg ≠ none) (hlt : sl.sl_lastindx ≠ SEGLIST_OBJS_PER_SEG) :
    SeglistInv (st.modifySeg la (fun s => s.setSlot sl.sl_lastindx obj))
        ⟨sl.sl_rootseg, sl.sl_lastseg, sl.sl_lastindx + 1⟩ ∧
      seglistItems (st.modifySeg la (fun s => s.setSlot sl.sl_lastindx obj))
          ⟨sl.sl_rootseg, sl.sl_lastseg, sl.sl_lastindx + 1⟩ =
        seglistItems st sl ++ [obj] ∧
      seglistChain (st.modifySeg la (fun s => s.setSlot sl.sl_lastindx obj))
          ⟨sl.sl_rootseg, sl.sl_lastseg, sl.sl_lastindx + 1⟩ =
        seglistChain st sl := by
  obtain ⟨hstore, addrs, hchain, hnodup, hempty, hnonempty, hfull, hlast⟩ := hinv
  have hne : addrs ≠ [] := by
    intro h
    exact hroot (hempty h).1
  obtain ⟨hlasteq, hge1, hle8⟩ := hnonempty hne
  have hlastaddr : addrs.getLast? = some la := by
    rw [← hlasteq, hlseg]
  have hltlt : sl.sl_lastindx < SEGLIST_OBJS_PER_SEG := by
    omega
  obtain ⟨sla, hfindla, hfilledla⟩ := hlast la hlastaddr
  have hsplit : addrs.dropLast ++ [la] = addrs :=
    List.dropLast_append_getLast? la (Option.mem_def.mpr hlastaddr)
  have hla_not_dl : la ∉ addrs.dropLast := by
    intro hmem
    have hnd := hnodup
    rw [← hsplit, List.nodup_append] at hnd
    exact hnd.2.2 hmem (List.mem_singleton.mpr rfl)
  have hfindf : ∀ b,
      (st.modifySeg la (fun s => s.setSlot sl.sl_lastindx obj)).find b =
        if b = la then some (sla.setSlot sl.sl_lastindx obj) else st.find b := by
    intro b
    rw [find_modifySeg]
    by_cases hb : b = la
    · subst hb
      rw [if_pos rfl, if_pos rfl, hfindla]
      rfl
    · rw [if_neg hb, if_neg hb]
  have hchain_eq : ∀ (f : Nat) (y : Option Nat),
      chainFrom (st.modifySeg la (fun s => s.setSlot sl.sl_lastindx obj)) f y =
        chainFrom st f y := by
    apply chainFrom_congr
    intro x
    rw [hfindf]
    by_cases hx : x = la
    · rw [if_pos hx, hx, hfindla]
      rfl
    · rw [if_neg hx]
  have hchainf : seglistChain
      (st.modifySeg la (fun s => s.setSlot sl.sl_lastindx obj))
      ⟨sl.sl_rootseg, sl.sl_lastseg, sl.sl_lastindx + 1⟩ = some addrs := by
    rw [seglistChain, (modifySeg_lengths st la _).1, hchain_eq]
    exact hchain
  have hsf := segFilled_setSlot sla sl.sl_lastindx obj hfilledla hltlt
  refine ⟨?_, ?_, ?_⟩
  · refine ⟨storeInv_modifySeg _ _ _ hstore, addrs, hchainf, hnodup,
      fun h => absurd h hne, ?_, ?_, ?_⟩
    · intro _
      refine ⟨hlasteq, ?_, ?_⟩
      · show 1 ≤ sl.sl_lastindx + 1
        omega
      · show sl.sl_lastindx + 1 ≤ SEGLIST_OBJS_PER_SEG
        have h8 : SEGLIST_OBJS_PER_SEG = 8 := rfl
        rw [h8] at hle8 hlt ⊢
        omega
    · intro x hx
      obtain ⟨s, hfinds, hfilled⟩ := hfull x hx
      have hxla : x ≠ la := fun hc => hla_not_dl (hc ▸ hx)
      refine ⟨s, ?_, hfilled⟩
      rw [hfindf, if_neg hxla]
      exact hfinds
    · intro b hb
      rw [hlastaddr] at hb
      obtain rfl : la = b := by simpa using hb
      refine ⟨sla.setSlot sl.sl_lastindx obj, ?_, hsf.1⟩
      rw [hfindf, if_pos rfl]
  · rw [seglistItems, seglistItems, hchain, hchainf]
    conv_lhs => rw [← hsplit]
    conv_rhs => rw [← hsplit]
    simp only [List.flatMap_append, List.flatMap_cons, List.flatMap_nil,
      List.append_nil]
    have hcongr : addrs.dropLast.flatMap (fun x =>
        match (st.modifySeg la (fun s => s.setSlot sl.sl_lastindx obj)).find x with
        | none => []
        | some s => segItems s) =
        addrs.dropLast.flatMap (fun x =>
          match st.find x with
          | none => []
          | some s => segItems s) := by
      apply flatMap_congr
      intro x hx
      have hxla : x ≠ la := fun hc => hla_not_dl (hc ▸ hx)
      rw [hfindf, if_neg hxla]
    rw [hcongr]
    have hlaval : (st.modifySeg la (fun s => s.setSlot sl.sl_lastindx obj)).find la =
        some (sla.setSlot sl.sl_lastindx obj) := by
      rw [hfindf, if_pos rfl]
    rw [hlaval, hfindla]
    simp [hsf.2, List.append_assoc]
  · rw [hchainf, hchain]

theorem seglist_appendItem_spec (st : Store) (sl : Seglist) (obj : Obj)
    (hinv : SeglistInv st sl) :
    ∀ ret sl' st', seglist_appendItem st sl obj = (ret, sl', st') →
      (ret = .OK →
        SeglistInv st' sl' ∧
        seglistItems st' sl' = seglistItems st sl ++ [obj] ∧
        ((sl.sl_rootseg = none ∨ sl.sl_lastindx = SEGLIST_OBJS_PER_SEG) →
          seglistChain st' sl' =
            (seglistChain st sl).map (fun l => l ++ [st.nextAddr]) ∧
          st'.find st.nextAddr = some (newSegment.setSlot 0 obj)) ∧
        (¬(sl.sl_rootseg = none ∨ sl.sl_lastindx = SEGLIST_OBJS_PER_SEG) →
          seglistChain st' sl' = seglistChain st sl)) ∧
      (ret ≠ .OK →
        ret = .OUT_OF_MEMORY ∧ sl' = sl ∧ st' = st ∧ st.avail = 0) := by
  intro ret sl' st' heq
  rw [seglist_appendItem] at heq
  split at heq
  · rename_i hneed
    split at heq
    · rename_i halloc
      injection heq with h1 h23
      injection h23 with h2 h3
      subst h1
      subst h2
      subst h3
      constructor
      · intro hok
        exact absurd hok (by decide)
      · intro _
        refine ⟨rfl, rfl, rfl, ?_⟩
        by_contra hav
        rw [Store.allocSeg, if_neg hav] at halloc
        simp at halloc
    · rename_i a st1 halloc
      split at heq
      · rename_i hlseg
        injection heq with h1 h23
        injection h23 with h2 h3
        subst h1
        subst h2
        subst h3
        obtain ⟨hi, hit, hch, hfd⟩ :=
          append_case_first st sl obj hinv hlseg a st1 halloc
        constructor
        · intro _
          exact ⟨hi, hit, fun _ => ⟨hch, hfd⟩, fun hcon => absurd hneed hcon⟩
        · intro hok
          exact absurd rfl hok
      · rename_i la hlseg
        have hfullidx : sl.sl_lastindx = SEGLIST_OBJS_PER_SEG := by
          rcases hneed with hroot | h8
          · exfalso
            obtain ⟨hstore, addrs, hchain, _, hempty, _, _, _⟩ := hinv
            rw [seglistChain, hroot, chainFrom_none] at hchain
            obtain rfl : addrs = [] := by simpa using hchain.symm
            obtain ⟨_, h2, _⟩ := hempty rfl
            rw [hlseg] at h2
            simp at h2
          · exact h8
        injection heq with h1 h23
        injection h23 with h2 h3
        subst h1
        subst h2
        subst h3
        obtain ⟨hi, hit, hch, hfd⟩ :=
          append_case_grow st sl obj hinv la hlseg hfullidx a st1 halloc
        constructor
        · intro _
          exact ⟨hi, hit, fun _ => ⟨hch, hfd⟩, fun hcon => absurd hneed hcon⟩
        · intro hok
          exact absurd rfl hok
  · rename_i hneed
    push_neg at hneed
    obtain ⟨hroot, hlt⟩ := hneed
    split at heq
    · rename_i hlseg
      exfalso
      obtain ⟨hstore, addrs, hchain, _, hempty, hnonempty, _, _⟩ := hinv
      by_cases hadd : addrs = []
      · exact hroot (hempty hadd).1
      · obtain ⟨hlasteq, _, _⟩ := hnonempty hadd
        obtain ⟨x, hx⟩ := getLast?_isSome_of_ne_nil hadd
        rw [hlseg, hx] at hlasteq
        simp at hlasteq
    · rename_i la hlseg
      injection heq with h1 h23
      injection h23 with h2 h3
      subst h1
      subst h2
      subst h3
      obtain ⟨hi, hit, hch⟩ :=
        append_case_slot st sl obj hinv la hlseg hroot hlt
      constructor
      · intro _
        refine ⟨hi, hit, ?_, fun _ => hch⟩
        intro hcon
        rcases hcon with h | h
        · exact absurd h hroot
        · exact absurd h hlt
      · intro hok
        exact absurd rfl hok

theorem segFilled_setSlot_keep (s : Segment) (k ix : Nat) (obj : Obj)
    (h : SegFilled s k) (hix : ix < k) :
    SegFilled (s.setSlot ix obj) k := by
  obtain ⟨hlen, hval⟩ := segFilled_items s k h
  have hmaplen : ((segItems s).map some).length = k := by
    simpa using hlen
  refine ⟨(segItems s).set ix obj, by simpa using hlen, ?_⟩
  rw [Segment.setSlot]
  rw [hval, List.set_append_left _ _ (by omega), List.map_set]

theorem flatMap_getD_uniform (g : Nat → List Obj) :
    ∀ (addrs : List Nat) (sn : Nat), sn < addrs.length →
      (∀ j, j + 1 < addrs.length → (g (addrs.getD j 0)).length = SEGLIST_OBJS_PER_SEG) →
      ∀ ix, ix < SEGLIST_OBJS_PER_SEG →
        (addrs.flatMap g).getD (SEGLIST_OBJS_PER_SEG * sn + ix) 0 =
          (g (addrs.getD sn 0)).getD ix 0 := by
  have h8 : SEGLIST_OBJS_PER_SEG = 8 := rfl
  intro addrs
  induction addrs with
  | nil => intro sn hsn; simp at hsn
  | cons a rest ih =>
    intro sn hsn hlens ix hix
    cases sn with
    | zero =>
      have hgetD0 : (a :: rest).getD 0 0 = a := rfl
      rw [hgetD0]
      simp only [List.flatMap_cons, Nat.mul_zero, Nat.zero_add]
      rw [List.getD_eq_getElem?_getD, List.getD_eq_getElem?_getD]
      by_cases hlen : ix < (g a).length
      · rw [List.getElem?_append_left hlen]
      · cases rest with
        | nil => simp
        | cons b rest2 =>
          exfalso
          have h0 : (g a).length = SEGLIST_OBJS_PER_SEG := by
            simpa using hlens 0 (by simp)
          rw [h8] at h0 hix
          omega
    | succ sn =>
      have hsn' : sn < rest.length := by simpa using hsn
      have hlen_a : (g a).length = SEGLIST_OBJS_PER_SEG := by
        simpa using hlens 0 (by simp only [List.length_cons]; omega)
      rw [h8] at hlen_a
      have hgetDs : (a :: rest).getD (sn + 1) 0 = rest.getD sn 0 := rfl
      rw [hgetDs]
      simp only [List.flatMap_cons, h8]
      rw [List.getD_eq_getElem?_getD,
        List.getElem?_append_right (by rw [hlen_a]; omega)]
      have hidx : 8 * (sn + 1) + ix - (g a).length = 8 * sn + ix := by
        rw [hlen_a]
        omega
      rw [hidx, ← List.getD_eq_getElem?_getD]
      have hrec := ih sn hsn'
        (fun j hj => by simpa using hlens (j + 1) (by simpa using hj)) ix hix
      rw [h8] at hrec
      exact hrec

theorem segItemsAt_pos (st : Store) (a : Nat) (s : Segment)
    (h : st.find a = some s) : segItemsAt st a = segItems s := by
  rw [segItemsAt, h]

theorem seglistItems_flat (st : Store) (sl : Seglist) (addrs : List Nat)
    (h : seglistChain st sl = some addrs) :
    seglistItems st sl = addrs.flatMap (segItemsAt st) := by
  rw [seglistItems, h]
  rfl

theorem flatMap_length_const (c : Nat) (g : Nat → List Obj) (l : List Nat)
    (h : ∀ a ∈ l, (g a).length = c) : (l.flatMap g).length = c * l.length := by
  induction l with
  | nil => simp
  | cons a rest ih =>
    simp only [List.flatMap_cons, List.length_append, List.length_cons]
    rw [h a (List.mem_cons_self _ _),
      ih fun x hx => h x (List.mem_cons_of_mem a hx), Nat.mul_succ]
    omega

theorem seglistInv_unify (st : Store) (sl : Seglist) (hinv : SeglistInv st sl)
    (addrs : List Nat) (hchain : seglistChain st sl = some addrs) :
    addrs.Nodup ∧
      (addrs = [] →
        sl.sl_rootseg = none ∧ sl.sl_lastseg = none ∧ sl.sl_lastindx = 0) ∧
      (addrs ≠ [] →
        sl.sl_lastseg = addrs.getLast? ∧ 1 ≤ sl.sl_lastindx ∧
          sl.sl_lastindx ≤ SEGLIST_OBJS_PER_SEG) ∧
      (∀ a ∈ addrs.dropLast, ∃ s, st.find a = some s ∧
        SegFilled s SEGLIST_OBJS_PER_SEG) ∧
      (∀ a, addrs.getLast? = some a → ∃ s, st.find a = some s ∧
        SegFilled s sl.sl_lastindx) := by
  obtain ⟨_, addrs', hchain', h1, h2, h3, h4, h5⟩ := hinv
  rw [hchain] at hchain'
  obtain rfl : addrs = addrs' := by simpa using hchain'
  exact ⟨h1, h2, h3, h4, h5⟩

theorem seglistItems_length (st : Store) (sl : Seglist) (hinv : SeglistInv st sl)
    (addrs : List Nat) (hchain : seglistChain st sl = some addrs)
    (hne : addrs ≠ []) :
    (seglistItems st sl).length =
      SEGLIST_OBJS_PER_SEG * (addrs.length - 1) + sl.sl_lastindx := by
  obtain ⟨hnodup, hempty, hnonempty, hfull, hlast⟩ :=
    seglistInv_unify st sl hinv addrs hchain
  obtain ⟨x, hx⟩ := getLast?_isSome_of_ne_nil hne
  obtain ⟨s, hfind, hfilled⟩ := hlast x hx
  have hsplit : addrs.dropLast ++ [x] = addrs :=
    List.dropLast_append_getLast? x (Option.mem_def.mpr hx)
  rw [seglistItems_flat st sl addrs hchain, ← hsplit, List.flatMap_append]
  simp only [List.flatMap_cons, List.flatMap_nil, List.append_nil,
    List.length_append]
  have hlenc : ∀ a ∈ addrs.dropLast, (segItemsAt st a).length =
      SEGLIST_OBJS_PER_SEG := by
    intro a ha
    obtain ⟨sa, hfa, hfla⟩ := hfull a ha
    rw [segItemsAt_pos st a sa hfa]
    exact (segFilled_items sa _ hfla).1
  rw [flatMap_length_const SEGLIST_OBJS_PER_SEG (segItemsAt st)
    addrs.dropLast hlenc]
  rw [segItemsAt_pos st x s hfind, (segFilled_items s _ hfilled).1]
  have : addrs.dropLast.length = addrs.length - 1 := List.length_dropLast addrs
  rw [this]
  simp

theorem getLast?_eq_getD (addrs : List Nat) (hne : addrs ≠ []) :
    addrs.getLast? = some (addrs.getD (addrs.length - 1) 0) := by
  have hpos : 0 < addrs.length := List.length_pos.mpr hne
  rw [List.getLast?_eq_getElem?, List.getElem?_eq_getElem (by omega),
    getD_eq_getElem _ _ (by omega)]

theorem seglist_getItem_coord (st : Store) (sl : Seglist)
    (hinv : SeglistInv st sl) (addrs : List Nat)
    (hchain : seglistChain st sl = some addrs) (segnum segindx : Nat)
    (hsn : segnum < addrs.length) (hix : segindx < SEGLIST_OBJS_PER_SEG)
    (hlastok : segnum + 1 = addrs.length → segindx < sl.sl_lastindx) :
    seglist_getItem st sl segnum segindx =
      (.OK, some ((seglistItems st sl).getD
        (SEGLIST_OBJS_PER_SEG * segnum + segindx) 0)) := by
  obtain ⟨hnodup, hempty, hnonempty, hfull, hlast⟩ :=
    seglistInv_unify st sl hinv addrs hchain
  have hne : addrs ≠ [] := by
    intro h
    rw [h] at hsn
    simp at hsn
  obtain ⟨hlasteq, hge1, hle8⟩ := hnonempty hne
  have hchain' : chainFrom st (st.segs.length + 1) sl.sl_rootseg = some addrs :=
    hchain
  have hwalk := (chainFrom_walk st addrs _ _ hchain').1 segnum hsn
  obtain ⟨s, hfind⟩ := chainFrom_find st addrs _ _ hchain' (addrs.getD segnum 0)
    (by rw [getD_eq_getElem _ _ hsn]; exact List.getElem_mem hsn)
  have hlastD := getLast?_eq_getD addrs hne
  have hlens : ∀ j, j + 1 < addrs.length →
      (segItemsAt st (addrs.getD j 0)).length = SEGLIST_OBJS_PER_SEG := by
    intro j hj
    have hjd : j < addrs.dropLast.length := by
      rw [List.length_dropLast]
      omega
    have hjmem : addrs.getD j 0 ∈ addrs.dropLast := by
      have := List.getElem_dropLast addrs j hjd
      rw [getD_eq_getElem _ _ (by omega)]
      rw [← this]
      exact List.getElem_mem hjd
    obtain ⟨sa, hfa, hfla⟩ := hfull _ hjmem
    rw [segItemsAt_pos st _ sa hfa]
    exact (segFilled_items sa _ hfla).1
  have hitems : seglistItems st sl = addrs.flatMap (segItemsAt st) :=
    seglistItems_flat st sl addrs hchain
  have hflat := flatMap_getD_uniform (segItemsAt st) addrs segnum hsn hlens
    segindx hix
  by_cases hl : segnum + 1 = addrs.length
  · have hsegD : addrs.length - 1 = segnum := by omega
    have halast : addrs.getLast? = some (addrs.getD segnum 0) := by
      rw [hlastD, hsegD]
    obtain ⟨s', hfind', hfilled⟩ := hlast _ halast
    have hss : s' = s := by
      rw [hfind] at hfind'
      simpa using hfind'.symm
    rw [hss] at hfilled
    have hguard : segindx < SEGLIST_OBJS_PER_SEG ∧
        (sl.sl_lastseg = some (addrs.getD segnum 0) →
          segindx < sl.sl_lastindx) :=
      ⟨hix, fun _ => hlastok hl⟩
    have hslot : s.s_val.getD segindx none =
        some ((segItems s).getD segindx 0) := by
      rw [segFilled_getD s _ hfilled hle8, if_pos (hlastok hl)]
    rw [seglist_getItem]
    simp only [hwalk, hfind, if_pos hguard, hslot]
    rw [hitems, hflat, segItemsAt_pos st _ s hfind]
  · have hguard : segindx < SEGLIST_OBJS_PER_SEG ∧
        (sl.sl_lastseg = some (addrs.getD segnum 0) →
          segindx < sl.sl_lastindx) := by
      refine ⟨hix, ?_⟩
      intro hcon
      exfalso
      rw [hlasteq, hlastD] at hcon
      have heqD : addrs.getD (addrs.length - 1) 0 = addrs.getD segnum 0 := by
        simpa using hcon
      rw [getD_eq_getElem _ _ (by omega), getD_eq_getElem _ _ hsn] at heqD
      have := (hnodup.getElem_inj_iff).mp heqD
      omega
    have hsd : segnum < addrs.dropLast.length := by
      rw [List.length_dropLast]
      omega
    have hmem : addrs.getD segnum 0 ∈ addrs.dropLast := by
      have := List.getElem_dropLast addrs segnum hsd
      rw [getD_eq_getElem _ _ hsn, ← this]
      exact List.getElem_mem hsd
    obtain ⟨s', hfind', hfilled8⟩ := hfull _ hmem
    have hss : s' = s := by
      rw [hfind] at hfind'
      simpa using hfind'.symm
    rw [hss] at hfilled8
    have hslot : s.s_val.getD segindx none =
        some ((segItems s).getD segindx 0) := by
      rw [segFilled_getD s _ hfilled8 (Nat.le_refl _), if_pos hix]
    rw [seglist_getItem]
    simp only [hwalk, hfind, if_pos hguard, hslot]
    rw [hitems, hflat, segItemsAt_pos st _ s hfind]

theorem seglist_getItem_items (st : Store) (sl : Seglist) (hinv : SeglistInv st sl)
    (i : Nat) (hi : i < (seglistItems st sl).length) :
    seglist_getItem st sl (i / SEGLIST_OBJS_PER_SEG) (i % SEGLIST_OBJS_PER_SEG) =
      (.OK, some ((seglistItems st sl).getD i 0)) := by
  obtain ⟨addrs, hchain⟩ : ∃ addrs, seglistChain st sl = some addrs :=
    ⟨hinv.2.choose, hinv.2.choose_spec.1⟩
  have hne : addrs ≠ [] := by
    intro h
    rw [seglistItems_flat st sl addrs hchain, h] at hi
    simp at hi
  have hlen := seglistItems_length st sl hinv addrs hchain hne
  obtain ⟨_, _, hnonempty, _, _⟩ := seglistInv_unify st sl hinv addrs hchain
  obtain ⟨_, hge1, hle8⟩ := hnonempty hne
  have h8 : SEGLIST_OBJS_PER_SEG = 8 := rfl
  rw [hlen, h8] at hi
  rw [h8] at hle8
  have hlenpos : 0 < addrs.length := List.length_pos.mpr hne
  have hsn : i / SEGLIST_OBJS_PER_SEG < addrs.length := by
    rw [h8]
    omega
  have hix : i % SEGLIST_OBJS_PER_SEG < SEGLIST_OBJS_PER_SEG := by
    rw [h8]
    omega
  have hlastok : i / SEGLIST_OBJS_PER_SEG + 1 = addrs.length →
      i % SEGLIST_OBJS_PER_SEG < sl.sl_lastindx := by
    rw [h8]
    omega
  have h := seglist_getItem_coord st sl hinv addrs hchain _ _ hsn hix hlastok
  rw [h]
  have hidx : SEGLIST_OBJS_PER_SEG * (i / SEGLIST_OBJS_PER_SEG) +
      i % SEGLIST_OBJS_PER_SEG = i := Nat.div_add_mod i SEGLIST_OBJS_PER_SEG
  rw [hidx]

theorem seglist_coord_invalid (st : Store) (sl : Seglist)
    (hinv : SeglistInv st sl) (addrs : List Nat)
    (hchain : seglistChain st sl = some addrs) (segnum segindx : Nat)
    (hout : addrs.length ≤ segnum ∨ SEGLIST_OBJS_PER_SEG ≤ segindx ∨
      (segnum + 1 = addrs.length ∧ sl.sl_lastindx ≤ segindx)) :
    seglist_getItem st sl segnum segindx = (.INVALID_COORDINATE, none) ∧
      ∀ obj, seglist_setItem st sl obj segnum segindx =
        (.INVALID_COORDINATE, st) := by
  obtain ⟨hnodup, hempty, hnonempty, hfull, hlast⟩ :=
    seglistInv_unify st sl hinv addrs hchain
  have hchain' : chainFrom st (st.segs.length + 1) sl.sl_rootseg = some addrs :=
    hchain
  by_cases hsn : segnum < addrs.length
  · have hne : addrs ≠ [] := by
      intro h
      rw [h] at hsn
      simp at hsn
    obtain ⟨hlasteq, hge1, hle8⟩ := hnonempty hne
    have hwalk := (chainFrom_walk st addrs _ _ hchain').1 segnum hsn
    obtain ⟨s, hfind⟩ := chainFrom_find st addrs _ _ hchain'
      (addrs.getD segnum 0)
      (by rw [getD_eq_getElem _ _ hsn]; exact List.getElem_mem hsn)
    have hcond : ¬(segindx < SEGLIST_OBJS_PER_SEG ∧
        (sl.sl_lastseg = some (addrs.getD segnum 0) →
          segindx < sl.sl_lastindx)) := by
      rcases hout with h1 | h2 | ⟨h3, h4⟩
      · omega
      · intro hc
        omega
      · intro hc
        have hlastD := getLast?_eq_getD addrs hne
        have hsegD : addrs.length - 1 = segnum := by omega
        have := hc.2 (by rw [hlasteq, hlastD, hsegD])
        omega
    constructor
    · rw [seglist_getItem]
      simp only [hwalk, hfind, if_neg hcond]
    · intro obj
      rw [seglist_setItem]
      simp only [hwalk, hfind, if_neg hcond]
  · have hwalk := (chainFrom_walk st addrs _ _ hchain').2 segnum
      (Nat.le_of_not_lt hsn)
    constructor
    · rw [seglist_getItem]
      simp only [hwalk]
    · intro obj
      rw [seglist_setItem]
      simp only [hwalk]

theorem setItem_chain_aux (st : Store) (sl : Seglist) (obj : Obj)
    (ix a : Nat) :
    seglistChain (st.modifySeg a (fun s0 => s0.setSlot ix obj)) sl =
      seglistChain st sl := by
  rw [seglistChain, seglistChain, (modifySeg_lengths st a _).1]
  apply chainFrom_congr
  intro x
  rw [find_modifySeg]
  by_cases hx : x = a
  · rw [if_pos hx]
    cases hfx : st.find x <;> simp [Segment.setSlot]
  · rw [if_neg hx]

theorem setItem_inv_aux (st : Store) (sl : Seglist) (hinv : SeglistInv st sl)
    (obj : Obj) (segnum segindx : Nat) (a : Nat) (s : Segment)
    (hwalk : walkSeg st sl.sl_rootseg segnum = some a)
    (hfind : st.find a = some s)
    (hcond : segindx < SEGLIST_OBJS_PER_SEG ∧
      (sl.sl_lastseg = some a → segindx < sl.sl_lastindx)) :
    SeglistInv (st.modifySeg a (fun s0 => s0.setSlot segindx obj)) sl := by
  obtain ⟨addrs, hchain⟩ : ∃ addrs, seglistChain st sl = some addrs :=
    ⟨hinv.2.choose, hinv.2.choose_spec.1⟩
  obtain ⟨hnodup, hempty, hnonempty, hfull, hlast⟩ :=
    seglistInv_unify st sl hinv addrs hchain
  have hchain' : chainFrom st (st.segs.length + 1) sl.sl_rootseg = some addrs :=
    hchain
  have hsn : segnum < addrs.length := by
    by_contra hc
    have hw2 := (chainFrom_walk st addrs _ _ hchain').2 segnum
      (Nat.le_of_not_lt hc)
    rw [hw2] at hwalk
    cases hwalk
  have hne : addrs ≠ [] := by
    intro h
    rw [h] at hsn
    simp at hsn
  obtain ⟨hlasteq, hge1, hle8⟩ := hnonempty hne
  have ha : a = addrs.getD segnum 0 := by
    have hw1 := (chainFrom_walk st addrs _ _ hchain').1 segnum hsn
    rw [hw1] at hwalk
    simpa using hwalk.symm
  have hfindf : ∀ b, (st.modifySeg a (fun s0 => s0.setSlot segindx obj)).find b =
      if b = a then some (s.setSlot segindx obj) else st.find b := by
    intro b
    rw [find_modifySeg]
    by_cases hb : b = a
    · rw [if_pos hb, if_pos hb, hb, hfind]
      rfl
    · rw [if_neg hb, if_neg hb]
  have hchainf : seglistChain (st.modifySeg a
      (fun s0 => s0.setSlot segindx obj)) sl = some addrs := by
    rw [setItem_chain_aux]
    exact hchain
  refine ⟨storeInv_modifySeg _ _ _ hinv.1, addrs, hchainf, hnodup,
    fun h => absurd hsn (by rw [h]; simp), fun _ => ⟨hlasteq, hge1, hle8⟩,
    ?_, ?_⟩
  · intro x hx
    by_cases hxa : x = a
    · subst hxa
      obtain ⟨s2, hfind2, hfilled2⟩ := hfull x hx
      have hss : s2 = s := by
        rw [hfind] at hfind2
        simpa using hfind2.symm
      rw [hss] at hfilled2
      refine ⟨s.setSlot segindx obj, ?_, ?_⟩
      · rw [hfindf, if_pos rfl]
      · exact segFilled_setSlot_keep s _ segindx obj hfilled2 hcond.1
    · obtain ⟨s2, hfind2, hfilled2⟩ := hfull x hx
      refine ⟨s2, ?_, hfilled2⟩
      rw [hfindf, if_neg hxa]
      exact hfind2
  · intro x hx
    by_cases hxa : x = a
    · subst hxa
      obtain ⟨s2, hfind2, hfilled2⟩ := hlast x hx
      have hss : s2 = s := by
        rw [hfind] at hfind2
        simpa using hfind2.symm
      rw [hss] at hfilled2
      have hlt : segindx < sl.sl_lastindx := by
        apply hcond.2
        rw [hlasteq, hx]
      refine ⟨s.setSlot segindx obj, ?_, ?_⟩
      · rw [hfindf, if_pos rfl]
      · exact segFilled_setSlot_keep s _ segindx obj hfilled2 hlt
    · obtain ⟨s2, hfind2, hfilled2⟩ := hlast x hx
      refine ⟨s2, ?_, hfilled2⟩
      rw [hfindf, if_neg hxa]
      exact hfind2

theorem seglist_setItem_spec (st : Store) (sl : Seglist) (hinv : SeglistInv st sl)
    (obj : Obj) (segnum segindx : Nat) :
    ∀ ret st', seglist_setItem st sl obj segnum segindx = (ret, st') →
      (ret = .OK →
        SeglistInv st' sl ∧ seglistChain st' sl = seglistChain st sl) ∧
      (ret ≠ .OK → ret = .INVALID_COORDINATE ∧ st' = st) := by
  intro ret st' heq
  rw [seglist_setItem] at heq
  split at heq
  · injection heq with h1 h2
    subst h1
    subst h2
    exact ⟨fun hok => absurd hok (by decide), fun _ => ⟨rfl, rfl⟩⟩
  · rename_i a hwalk
    split at heq
    · injection heq with h1 h2
      subst h1
      subst h2
      exact ⟨fun hok => absurd hok (by decide), fun _ => ⟨rfl, rfl⟩⟩
    · rename_i s hfind
      split at heq
      · rename_i hcond
        injection heq with h1 h2
        subst h1
        subst h2
        refine ⟨fun _ => ⟨?_, ?_⟩, fun hok => absurd rfl hok⟩
        · exact setItem_inv_aux st sl hinv obj segnum segindx a s hwalk
            hfind hcond
        · exact setItem_chain_aux st sl obj segindx a
      · rename_i hcond
        injection heq with h1 h2
        subst h1
        subst h2
        exact ⟨fun hok => absurd hok (by decide), fun _ => ⟨rfl, rfl⟩⟩

theorem findEqualAux_none (st : Store) (eq : Obj → Obj → Bool) (pobj : Obj)
    (fuel segnum indx : Nat) :
    findEqualAux st eq pobj fuel none segnum indx = (.NOT_FOUND, none) := by
  cases fuel <;> rfl

theorem slotMatches_true_iff (eq : Obj → Obj → Bool) (pobj : Obj)
    (slot : Option Obj) :
    slotMatches eq pobj slot = true ↔ ∃ o, slot = some o ∧ eq o pobj = true := by
  cases slot <;> simp [slotMatches]

theorem chainFrom_drop (st : Store) :
    ∀ (k : Nat) (addrs : List Nat) (f : Nat) (y : Option Nat),
      chainFrom st f y = some addrs →
      ∃ f', f' ≤ f ∧ chainFrom st f' (walkSeg st y k) = some (addrs.drop k) := by
  intro k
  induction k with
  | zero =>
    intro addrs f y h
    rw [walkSeg_zero]
    exact ⟨f, Nat.le_refl f, by simpa using h⟩
  | succ k ih =>
    intro addrs f y h
    cases addrs with
    | nil =>
      cases y with
      | none => exact ⟨f, Nat.le_refl f, by rw [walkSeg_none]; exact chainFrom_none st f⟩
      | some a =>
        rcases chainFrom_cons st f a [] h with ⟨_, _, _, _, _, _, hcon⟩
        simp at hcon
    | cons a rest =>
      have hy := chainFrom_start st f y a rest h
      subst hy
      rcases chainFrom_cons st f a (a :: rest) h with
        ⟨f1, s, rest', hf, hfind, hrec, heqv⟩
      simp only [List.cons.injEq, true_and] at heqv
      subst heqv
      subst hf
      obtain ⟨f', hle, hdrop⟩ := ih rest f1 s.next hrec
      refine ⟨f', Nat.le_succ_of_le hle, ?_⟩
      have hwstep : walkSeg st (some a) (k + 1) = walkSeg st s.next k := by
        simp [walkSeg, hfind]
      rw [hwstep]
      simpa using hdrop

theorem find_mem_keys (st : Store) (a : Nat) (s : Segment)
    (h : st.find a = some s) : a ∈ st.segs.map (fun p => p.1) := by
  rw [Store.find] at h
  rcases hf : st.segs.find? (fun p => p.1 == a) with _ | p
  · rw [hf] at h
    simp at h
  · have hmem := List.mem_of_find?_eq_some hf
    have hpred := List.find?_some hf
    have hpa : p.1 = a := by simpa using hpred
    rw [← hpa]
    exact List.mem_map_of_mem _ hmem

theorem chain_length_le (st : Store) (addrs : List Nat) (f : Nat)
    (y : Option Nat) (h : chainFrom st f y = some addrs)
    (hnd : addrs.Nodup) : addrs.length ≤ st.segs.length := by
  have hsub : addrs.toFinset ⊆ (st.segs.map (fun p => p.1)).toFinset := by
    intro x hx
    rw [List.mem_toFinset] at hx
    rw [List.mem_toFinset]
    obtain ⟨s, hs⟩ := chainFrom_find st addrs f y h x hx
    exact find_mem_keys st x s hs
  calc addrs.length = addrs.toFinset.card := (List.toFinset_card_of_nodup hnd).symm
    _ ≤ (st.segs.map (fun p => p.1)).toFinset.card := Finset.card_le_card hsub
    _ ≤ (st.segs.map (fun p => p.1)).length := List.toFinset_card_le _
    _ = st.segs.length := by simp

theorem findEqualAux_spec (st : Store) (eq : Obj → Obj → Bool) (pobj : Obj)
    (root : Option Nat) :
    ∀ (suffix : List Nat) (f fuel segnum indx : Nat) (y : Option Nat),
      chainFrom st f y = some suffix → suffix.length < fuel →
      walkSeg st root segnum = y →
      ((findEqualAux st eq pobj fuel y segnum indx).1 = .OK ↔
        ∃ sn ix o, coordLe (segnum, indx) (sn, ix) ∧ SlotAt st root sn ix o ∧
          eq o pobj = true) ∧
      (∀ c, (findEqualAux st eq pobj fuel y segnum indx).2 = some c →
        coordLe (segnum, indx) c ∧
        (∃ o, SlotAt st root c.1 c.2 o ∧ eq o pobj = true) ∧
        (∀ sn ix o, coordLe (segnum, indx) (sn, ix) → coordLt (sn, ix) c →
          SlotAt st root sn ix o → eq o pobj = false)) ∧
      ((findEqualAux st eq pobj fuel y segnum indx).1 = .OK →
        ∃ c, (findEqualAux st eq pobj fuel y segnum indx).2 = some c) ∧
      ((findEqualAux st eq pobj fuel y segnum indx).1 = .OK ∨
        (findEqualAux st eq pobj fuel y segnum indx).1 = .NOT_FOUND) := by
  intro suffix
  induction suffix with
  | nil =>
    intro f fuel segnum indx y hch hlen hw
    have hy : y = none := by
      cases y with
      | none => rfl
      | some a =>
        rcases chainFrom_cons st f a [] hch with ⟨_, _, _, _, _, _, hcon⟩
        simp at hcon
    subst hy
    rw [findEqualAux_none]
    refine ⟨?_, ?_, ?_, Or.inr rfl⟩
    · constructor
      · intro h
        exact absurd h (by decide)
      · rintro ⟨sn, ix, o, hge, ⟨a, s, hwalk, _, _⟩, _⟩
        exfalso
        simp only [coordLe] at hge
        have hwn : walkSeg st root sn = none := by
          have hdecomp : sn = segnum + (sn - segnum) := by omega
          rw [hdecomp, walkSeg_add, hw, walkSeg_none]
        rw [hwn] at hwalk
        cases hwalk
    · intro c hc
      exact absurd hc (by simp)
    · intro h
      exact absurd h (by decide)
  | cons a rest ih =>
    intro f fuel segnum indx y hch hlen hw
    have hy := chainFrom_start st f y a rest hch
    subst hy
    rcases chainFrom_cons st f a (a :: rest) hch with
      ⟨f1, s, rest', hf, hfind, hrec, heqv⟩
    simp only [List.cons.injEq, true_and] at heqv
    subst heqv
    cases fuel with
    | zero => simp at hlen
    | succ fuel1 =>
    have hlen1 : rest.length < fuel1 := by
      simp only [List.length_cons] at hlen
      omega
    have hw' : walkSeg st root (segnum + 1) = s.next := by
      have h1 : walkSeg st root (segnum + 1) =
          walkSeg st (walkSeg st root segnum) 1 := walkSeg_add st segnum 1 root
      rw [h1, hw]
      simp only [walkSeg, hfind]
      exact walkSeg_zero st s.next
    have hS : ∀ ix' o, SlotAt st root segnum ix' o ↔
        s.s_val.getD ix' none = some o := by
      intro ix' o
      constructor
      · rintro ⟨a', s', hwalk', hfind', hslot⟩
        rw [hw] at hwalk'
        obtain rfl : a = a' := by simpa using hwalk'
        rw [hfind] at hfind'
        obtain rfl : s = s' := by simpa using hfind'
        exact hslot
      · intro hslot
        exact ⟨a, s, hw, hfind, hslot⟩
    rcases hscan : (s.s_val.drop indx).findIdx? (slotMatches eq pobj)
      with _ | j
    · have hstep : findEqualAux st eq pobj (fuel1 + 1) (some a) segnum indx =
          findEqualAux st eq pobj fuel1 s.next (segnum + 1) 0 := by
        rw [findEqualAux]
        simp only [hfind, hscan]
      have hN : ∀ ix' o, indx ≤ ix' → s.s_val.getD ix' none = some o →
          eq o pobj = false := by
        intro ix' o hge hslot
        have hlt : ix' < s.s_val.length := by
          by_contra hc
          rw [List.getD_eq_getElem?_getD,
            List.getElem?_eq_none (Nat.le_of_not_lt hc)] at hslot
          simp at hslot
        have hdlt : ix' - indx < (s.s_val.drop indx).length := by
          simp only [List.length_drop]
          omega
        have hmem : (s.s_val.drop indx).get ⟨ix' - indx, hdlt⟩ ∈
            s.s_val.drop indx := List.get_mem _ _ _
        have hgm := List.findIdx?_eq_none_iff.mp hscan _ hmem
        have hval : (s.s_val.drop indx).get ⟨ix' - indx, hdlt⟩ = some o := by
          show (s.s_val.drop indx)[ix' - indx] = some o
          rw [List.getElem_drop]
          rw [List.getD_eq_getElem?_getD, List.getElem?_eq_getElem hlt] at hslot
          simp only [Option.getD_some] at hslot
          have hix : indx + (ix' - indx) = ix' := by omega
          simp only [hix]
          exact hslot
        rw [hval] at hgm
        simpa [slotMatches] using hgm
      obtain ⟨ihA, ihB, ihC, ihD⟩ := ih f1 fuel1 (segnum + 1) 0 s.next hrec
        hlen1 hw'
      rw [hstep]
      refine ⟨?_, ?_, ihC, ihD⟩
      · rw [ihA]
        constructor
        · rintro ⟨sn, ix, o, hge, hslot, heqo⟩
          refine ⟨sn, ix, o, ?_, hslot, heqo⟩
          simp only [coordLe] at hge ⊢
          omega
        · rintro ⟨sn, ix, o, hge, hslot, heqo⟩
          simp only [coordLe] at hge
          by_cases hsn : sn = segnum
          · exfalso
            subst hsn
            have := hN ix o (by omega) ((hS ix o).mp hslot)
            rw [heqo] at this
            cases this
          · refine ⟨sn, ix, o, ?_, hslot, heqo⟩
            simp only [coordLe]
            omega
      · intro c hc
        obtain ⟨hcle, hcex, hcmin⟩ := ihB c hc
        refine ⟨?_, hcex, ?_⟩
        · simp only [coordLe] at hcle ⊢
          omega
        · intro sn ix o hge hltc hslot
          by_cases hsn : sn = segnum
          · subst hsn
            simp only [coordLe] at hge
            exact hN ix o (by omega) ((hS ix o).mp hslot)
          · apply hcmin sn ix o ?_ hltc hslot
            simp only [coordLe] at hge ⊢
            omega
    · have hstep : findEqualAux st eq pobj (fuel1 + 1) (some a) segnum indx =
          (.OK, some (segnum, indx + j)) := by
        rw [findEqualAux]
        simp only [hfind, hscan]
      rw [hstep]
      rw [List.findIdx?_eq_some_iff_getElem] at hscan
      obtain ⟨hjlt, hpj, hjmin⟩ := hscan
      have hjlt' : indx + j < s.s_val.length := by
        simp only [List.length_drop] at hjlt
        omega
      obtain ⟨o, hoeq, hoeqp⟩ := (slotMatches_true_iff eq pobj _).mp hpj
      have hslotv : s.s_val.getD (indx + j) none = some o := by
        rw [List.getD_eq_getElem?_getD, List.getElem?_eq_getElem hjlt']
        have hval : s.s_val[indx + j] = (s.s_val.drop indx)[j] := by
          rw [List.getElem_drop]
        rw [hval, hoeq]
        rfl
      have hjmin' : ∀ ix' o', indx ≤ ix' → ix' < indx + j →
          s.s_val.getD ix' none = some o' → eq o' pobj = false := by
        intro ix' o' h1 h2 hslot
        have hj' : ix' - indx < j := by omega
        have hm := hjmin (ix' - indx) hj'
        have hlt : ix' < s.s_val.length := by omega
        have hk2 : ix' - indx < (s.s_val.drop indx).length :=
          Nat.lt_trans hj' hjlt
        have hval : (s.s_val.drop indx)[ix' - indx] = some o' := by
          rw [List.getElem_drop]
          rw [List.getD_eq_getElem?_getD, List.getElem?_eq_getElem hlt] at hslot
          simp only [Option.getD_some] at hslot
          have hix : indx + (ix' - indx) = ix' := by omega
          simp only [hix]
          exact hslot
        rw [hval] at hm
        simpa [slotMatches] using hm
      refine ⟨⟨fun _ => ⟨segnum, indx + j, o,
        Or.inr ⟨rfl, Nat.le_add_right indx j⟩,
        (hS _ o).mpr hslotv, hoeqp⟩, fun _ => rfl⟩, ?_,
        fun _ => ⟨(segnum, indx + j), rfl⟩, Or.inl rfl⟩
      intro c hc
      obtain rfl : (segnum, indx + j) = c := by simpa using hc
      refine ⟨Or.inr ⟨rfl, Nat.le_add_right indx j⟩,
        ⟨o, (hS _ o).mpr hslotv, hoeqp⟩, ?_⟩
      intro sn ix o' hge hltc hslot
      simp only [coordLe] at hge
      simp only [coordLt] at hltc
      have hsn : sn = segnum := by omega
      subst hsn
      exact hjmin' ix o' (by omega) (by omega) ((hS ix o').mp hslot)

theorem seglist_findEqual_spec (st : Store) (sl : Seglist)
    (hinv : SeglistInv st sl) (eq : Obj → Obj → Bool) (pobj : Obj)
    (segnum indx : Nat) :
    ((seglist_findEqual st sl eq pobj segnum indx).1 = .OK ↔
      ∃ sn ix o, coordLe (segnum, indx) (sn, ix) ∧
        SlotAt st sl.sl_rootseg sn ix o ∧ eq o pobj = true) ∧
    (∀ c, (seglist_findEqual st sl eq pobj segnum indx).2 = some c →
      coordLe (segnum, indx) c ∧
      (∃ o, SlotAt st sl.sl_rootseg c.1 c.2 o ∧ eq o pobj = true) ∧
      (∀ sn ix o, coordLe (segnum, indx) (sn, ix) → coordLt (sn, ix) c →
        SlotAt st sl.sl_rootseg sn ix o → eq o pobj = false)) ∧
    ((seglist_findEqual st sl eq pobj segnum indx).1 = .OK →
      ∃ c, (seglist_findEqual st sl eq pobj segnum indx).2 = some c) ∧
    ((seglist_findEqual st sl eq pobj segnum indx).1 = .OK ∨
      (seglist_findEqual st sl eq pobj segnum indx).1 = .NOT_FOUND) := by
  obtain ⟨addrs, hchain⟩ : ∃ addrs, seglistChain st sl = some addrs :=
    ⟨hinv.2.choose, hinv.2.choose_spec.1⟩
  obtain ⟨hnodup, _, _, _, _⟩ := seglistInv_unify st sl hinv addrs hchain
  have hchain' : chainFrom st (st.segs.length + 1) sl.sl_rootseg = some addrs :=
    hchain
  obtain ⟨f', hle, hdrop⟩ := chainFrom_drop st segnum addrs _ _ hchain'
  have hlendrop : (addrs.drop segnum).length < st.segs.length + 1 := by
    have h1 : addrs.length ≤ st.segs.length :=
      chain_length_le st addrs _ _ hchain' hnodup
    simp only [List.length_drop]
    omega
  have h := findEqualAux_spec st eq pobj sl.sl_rootseg (addrs.drop segnum) f'
    (st.segs.length + 1) segnum indx (walkSeg st sl.sl_rootseg segnum)
    hdrop hlendrop rfl
  exact h

theorem seglistInv_empty (st : Store) (hst : StoreInv st) :
    SeglistInv st ⟨none, none, 0⟩ := by
  refine ⟨hst, [], ?_, by simp, fun _ => ⟨rfl, rfl, rfl⟩,
    fun h => absurd rfl h, ?_, ?_⟩
  · rw [seglistChain]
    exact chainFrom_none st _
  · intro a ha
    simp at ha
  · intro a ha
    simp at ha

theorem storeInv_nil (n0 avail : Nat) : StoreInv ⟨[], n0, avail⟩ := by
  intro p hp
  simp at hp

theorem seglistInv_lastindx_le (st : Store) (sl : Seglist)
    (hinv : SeglistInv st sl) : sl.sl_lastindx ≤ SEGLIST_OBJS_PER_SEG := by
  obtain ⟨_, addrs, hchain, _, hempty, hnonempty, _, _⟩ := hinv
  by_cases h : addrs = []
  · rw [(hempty h).2.2]
    exact Nat.zero_le _
  · exact (hnonempty h).2.2

theorem appendRunOK_spec : ∀ (objs : List Obj) (st : Store) (sl : Seglist),
    SeglistInv st sl →
    SeglistInv (appendRunOK st sl objs).2.2 (appendRunOK st sl objs).2.1 ∧
      ((appendRunOK st sl objs).1 = true →
        seglistItems (appendRunOK st sl objs).2.2 (appendRunOK st sl objs).2.1 =
          seglistItems st sl ++ objs) := by
  intro objs
  induction objs with
  | nil =>
    intro st sl hinv
    exact ⟨hinv, fun _ => by simp [appendRunOK]⟩
  | cons o rest ih =>
    intro st sl hinv
    rcases happ : seglist_appendItem st sl o with ⟨ret, sl1, st1⟩
    have hspec := seglist_appendItem_spec st sl o hinv ret sl1 st1 happ
    rcases hrun2 : appendRunOK st1 sl1 rest with ⟨ok2, sl2, st2⟩
    have hrun : appendRunOK st sl (o :: rest) =
        (decide (ret = .OK) && ok2, sl2, st2) := by
      simp only [appendRunOK, happ, hrun2]
    rw [hrun]
    by_cases hok : ret = .OK
    · obtain ⟨hinv1, hitems1, _, _⟩ := hspec.1 hok
      obtain ⟨ih1, ih2⟩ := ih st1 sl1 hinv1
      rw [hrun2] at ih1 ih2
      refine ⟨ih1, ?_⟩
      intro hflag
      rw [Bool.and_eq_true] at hflag
      rw [ih2 hflag.2, hitems1, List.append_assoc, List.singleton_append]
    · obtain ⟨_, hsl, hst, _⟩ := hspec.2 hok
      subst hsl
      subst hst
      obtain ⟨ih1, ih2⟩ := ih _ _ hinv
      rw [hrun2] at ih1 ih2
      refine ⟨ih1, ?_⟩
      intro hflag
      rw [Bool.and_eq_true, decide_eq_true_iff] at hflag
      exact absurd hflag.1 hok

theorem getItem_ok_slotAt (st : Store) (sl : Seglist) (sn ix : Nat) (o : Obj)
    (h : seglist_getItem st sl sn ix = (.OK, some o)) :
    SlotAt st sl.sl_rootseg sn ix o := by
  rw [seglist_getItem] at h
  split at h
  · exact absurd h (by simp)
  · rename_i a hwalk
    split at h
    · exact absurd h (by simp)
    · rename_i s hfind
      split at h
      · split at h
        · exact absurd h (by simp)
        · rename_i o' hslot
          refine ⟨a, s, hwalk, hfind, ?_⟩
          have h2 : some o' = some o := congrArg Prod.snd h
          rw [hslot, h2]
      · exact absurd h (by simp)

/-- Claim C3: starting from `seglist_new` (which yields an empty seglist
with null root and last pointers and `sl_lastindx = 0`, consuming one
chunk), appending the nine distinct objects 0..8 succeeds and produces
exactly two linked segments: the first holds 0..7 in order and its `next`
field points to the second; the second holds 8 in slot 0, its remaining
seven slots unused and its `next` field the null sentinel.  The seglist's
root points at the first segment, `sl_lastseg` at the second, and
`sl_lastindx = 1`.  `seglist_getItem` at coordinates (1,0) returns `OK`
with object 8, while (0,8) fails with `INVALID_COORDINATE` and returns no
object. -/
theorem seglist_two_segment_scenario :
    seglist_new ⟨[], 0, 3⟩ = (.OK, some ⟨none, none, 0⟩, ⟨[], 0, 2⟩) ∧
    nineAppendRun.1 = true ∧
    seglistChain nineAppendRun.2.2 nineAppendRun.2.1 = some [0, 1] ∧
    (nineAppendRun.2.2.find 0).map Segment.s_val =
      some [some 0, some 1, some 2, some 3, some 4, some 5, some 6, some 7] ∧
    (nineAppendRun.2.2.find 0).map Segment.next = some (some 1) ∧
    (nineAppendRun.2.2.find 1).map Segment.s_val =
      some (some 8 :: List.replicate 7 none) ∧
    (nineAppendRun.2.2.find 1).map Segment.next = some none ∧
    nineAppendRun.2.1.sl_rootseg = some 0 ∧
    nineAppendRun.2.1.sl_lastseg = some 1 ∧
    nineAppendRun.2.1.sl_lastindx = 1 ∧
    seglist_getItem nineAppendRun.2.2 nineAppendRun.2.1 1 0 = (.OK, some 8) ∧
    seglist_getItem nineAppendRun.2.2 nineAppendRun.2.1 0 8 =
      (.INVALID_COORDINATE, none) := by
  decide

theorem seglistInv_dense (st : Store) (sl : Seglist) (hinv : SeglistInv st sl)
    (addrs : List Nat) (hchain : seglistChain st sl = some addrs)
    (a : Nat) (ha : a ∈ addrs) (s : Segment) (hfind : st.find a = some s)
    (i j : Nat) (hij : i ≤ j) (hj : s.s_val.getD j none ≠ none) :
    s.s_val.getD i none ≠ none := by
  obtain ⟨hnodup, hempty, hnonempty, hfull, hlast⟩ :=
    seglistInv_unify st sl hinv addrs hchain
  have hne : addrs ≠ [] := by
    intro h
    rw [h] at ha
    simp at ha
  have hex : ∃ k, k ≤ SEGLIST_OBJS_PER_SEG ∧ SegFilled s k := by
    rw [← List.dropLast_append_getLast hne] at ha
    rcases List.mem_append.1 ha with h1 | h2
    · obtain ⟨s', hfind', hfill'⟩ := hfull a h1
      have hss : s' = s := Option.some.inj (hfind'.symm.trans hfind)
      exact ⟨SEGLIST_OBJS_PER_SEG, le_refl _, hss ▸ hfill'⟩
    · have ha2 : a = addrs.getLast hne := by simpa using h2
      obtain ⟨s', hfind', hfill'⟩ := hlast a
        (by rw [List.getLast?_eq_getLast addrs hne, ha2])
      have hss : s' = s := Option.some.inj (hfind'.symm.trans hfind)
      exact ⟨sl.sl_lastindx, (hnonempty hne).2.2, hss ▸ hfill'⟩
  obtain ⟨k, hk8, hfill⟩ := hex
  rw [segFilled_getD s k hfill hk8 j] at hj
  rw [segFilled_getD s k hfill hk8 i]
  by_cases hjk : j < k
  · rw [if_pos (by omega)]
    simp
  · rw [if_neg hjk] at hj
    exact absurd rfl hj

theorem coordLe_zero (c : Nat × Nat) : coordLe (0, 0) c := by
  rcases Nat.eq_zero_or_pos c.1 with h | h
  · exact Or.inr ⟨h.symm, Nat.zero_le _⟩
  · exact Or.inl h

/-- Claim C4: for every sequence of `appendItem` calls (here: after the
first `k` calls of an arbitrary sequence started from a fresh empty
seglist), the density invariant holds: the full structural invariant
`SeglistInv` is maintained, within every segment of the chain no occupied
slot is preceded by an empty slot (equivalently, no occupied slot follows
an empty one before the logical end of data), and `sl_lastindx` lies in
`[0, SEGLIST_OBJS_PER_SEG]` (the lower bound is inherent in the `Nat`
type); moreover whenever `sl_lastindx` equals the segment capacity, the
next successful append first allocates a fresh segment, links it at the
end of the chain, and stores the object in its slot 0. -/
theorem seglist_append_density (n0 avail k : Nat) (objs : List Obj)
    (obj : Obj) :
    SeglistInv (appendRun0 n0 avail (objs.take k)).2.2
      (appendRun0 n0 avail (objs.take k)).2.1 ∧
    (appendRun0 n0 avail (objs.take k)).2.1.sl_lastindx ≤
      SEGLIST_OBJS_PER_SEG ∧
    (∀ addrs, seglistChain (appendRun0 n0 avail (objs.take k)).2.2
        (appendRun0 n0 avail (objs.take k)).2.1 = some addrs →
      ∀ a ∈ addrs, ∀ s,
        (appendRun0 n0 avail (objs.take k)).2.2.find a = some s →
        ∀ i j, i ≤ j → s.s_val.getD j none ≠ none →
          s.s_val.getD i none ≠ none) ∧
    ((appendRun0 n0 avail (objs.take k)).2.1.sl_lastindx =
        SEGLIST_OBJS_PER_SEG →
      ∀ ret sl' st',
        seglist_appendItem (appendRun0 n0 avail (objs.take k)).2.2
          (appendRun0 n0 avail (objs.take k)).2.1 obj = (ret, sl', st') →
        ret = .OK →
        seglistChain st' sl' =
          (seglistChain (appendRun0 n0 avail (objs.take k)).2.2
            (appendRun0 n0 avail (objs.take k)).2.1).map
            (fun l => l ++ [(appendRun0 n0 avail (objs.take k)).2.2.nextAddr]) ∧
        st'.find (appendRun0 n0 avail (objs.take k)).2.2.nextAddr =
          some (newSegment.setSlot 0 obj)) := by
  have hinv0 : SeglistInv ⟨[], n0, avail⟩ ⟨none, none, 0⟩ :=
    seglistInv_empty _ (storeInv_nil n0 avail)
  have hrun := (appendRunOK_spec (objs.take k) _ _ hinv0).1
  refine ⟨hrun, seglistInv_lastindx_le _ _ hrun, ?_, ?_⟩
  · intro addrs hchain a ha s hfind i j hij hj
    exact seglistInv_dense _ _ hrun addrs hchain a ha s hfind i j hij hj
  · intro hfull ret sl' st' heq hok
    have hspec := seglist_appendItem_spec _ _ obj hrun ret sl' st' heq
    obtain ⟨_, _, hgrow, _⟩ := hspec.1 hok
    exact hgrow (Or.inr hfull)

theorem seglist_append_density_witness :
    (appendRun0 0 2 ([0, 1, 2, 3, 4, 5, 6, 7, 8].take 8)).2.1.sl_lastindx =
      SEGLIST_OBJS_PER_SEG ∧
    (seglist_appendItem (appendRun0 0 2 ([0, 1, 2, 3, 4, 5, 6, 7, 8].take 8)).2.2
        (appendRun0 0 2 ([0, 1, 2, 3, 4, 5, 6, 7, 8].take 8)).2.1 8).2.2.find
      (appendRun0 0 2 ([0, 1, 2, 3, 4, 5, 6, 7, 8].take 8)).2.2.nextAddr =
      some (newSegment.setSlot 0 8) := by
  refine ⟨by decide, ?_⟩
  have h := (seglist_append_density 0 2 8 [0, 1, 2, 3, 4, 5, 6, 7, 8] 8).2.2.2
    (by decide) _ _ _ rfl (by decide)
  exact h.2

/-- Claim C5: (a) after any fully successful run of `appendItem` calls from
a fresh empty seglist, `getItem` at the coordinates implied by append
order — segment number `i / SEGLIST_OBJS_PER_SEG`, index
`i % SEGLIST_OBJS_PER_SEG` for the `i`-th appended object — returns `OK`
with exactly that object; (b) after any successful `insertItem` into a
well-formed seglist, `findEqual` scanning from the beginning with a
reflexive equality predicate reports `OK` and returns coordinates of a
slot holding an object equal to the inserted one. -/
theorem seglist_append_getItem_roundtrip (n0 avail : Nat) (objs : List Obj) :
    ((appendRun0 n0 avail objs).1 = true →
      ∀ i, i < objs.length →
        seglist_getItem (appendRun0 n0 avail objs).2.2
            (appendRun0 n0 avail objs).2.1
            (i / SEGLIST_OBJS_PER_SEG) (i % SEGLIST_OBJS_PER_SEG) =
          (.OK, some (objs.getD i 0))) ∧
    (∀ (st : Store) (sl : Seglist), SeglistInv st sl →
      ∀ (eq : Obj → Obj → Bool) (obj : Obj) (segnum segindx : Nat)
        (ret : PmReturn) (sl' : Seglist) (st' : Store),
        eq obj obj = true →
        seglist_insertItem st sl obj segnum segindx = (ret, sl', st') →
        ret = .OK →
        (seglist_findEqual st' sl' eq obj 0 0).1 = .OK ∧
          ∃ c, (seglist_findEqual st' sl' eq obj 0 0).2 = some c ∧
            ∃ o, SlotAt st' sl'.sl_rootseg c.1 c.2 o ∧ eq o obj = true) := by
  constructor
  · intro hok i hi
    have hinv0 : SeglistInv ⟨[], n0, avail⟩ ⟨none, none, 0⟩ :=
      seglistInv_empty _ (storeInv_nil n0 avail)
    obtain ⟨hinv, hitems⟩ := appendRunOK_spec objs _ _ hinv0
    have hit := hitems hok
    have hstart : seglistItems ⟨[], n0, avail⟩ (⟨none, none, 0⟩ : Seglist) =
        [] := rfl
    rw [hstart, List.nil_append] at hit
    have hi' : i < (seglistItems (appendRunOK ⟨[], n0, avail⟩
        ⟨none, none, 0⟩ objs).2.2 (appendRunOK ⟨[], n0, avail⟩
        ⟨none, none, 0⟩ objs).2.1).length := by
      rw [hit]
      exact hi
    have h := seglist_getItem_items _ _ hinv i hi'
    rw [hit] at h
    exact h
  · intro st sl hinv eq obj segnum segindx ret sl' st' heqrefl hins hok
    have hspec := seglist_appendItem_spec st sl obj hinv ret sl' st' hins
    obtain ⟨hinv', hitems', _, _⟩ := hspec.1 hok
    have hi' : (seglistItems st sl).length <
        (seglistItems st' sl').length := by
      rw [hitems']
      simp
    have hget := seglist_getItem_items st' sl' hinv'
      (seglistItems st sl).length hi'
    have hgetD : (seglistItems st' sl').getD (seglistItems st sl).length 0 =
        obj := by
      rw [hitems', List.getD_eq_getElem?_getD, List.getElem?_concat_length]
      rfl
    rw [hgetD] at hget
    have hslot := getItem_ok_slotAt st' sl' _ _ obj hget
    have hfe := seglist_findEqual_spec st' sl' hinv' eq obj 0 0
    have hOK : (seglist_findEqual st' sl' eq obj 0 0).1 = .OK :=
      hfe.1.mpr ⟨_, _, obj, coordLe_zero _, hslot, heqrefl⟩
    refine ⟨hOK, ?_⟩
    obtain ⟨c, hc⟩ := hfe.2.2.1 hOK
    obtain ⟨_, ⟨o, ho, heqo⟩, _⟩ := hfe.2.1 c hc
    exact ⟨c, hc, o, ho, heqo⟩

theorem seglist_append_getItem_roundtrip_witness :
    seglist_getItem (appendRun0 0 2 [3, 4]).2.2 (appendRun0 0 2 [3, 4]).2.1
      0 1 = (.OK, some 4) ∧
    (seglist_findEqual (seglist_insertItem ⟨[], 0, 1⟩ ⟨none, none, 0⟩ 5 0 0).2.2
        (seglist_insertItem ⟨[], 0, 1⟩ ⟨none, none, 0⟩ 5 0 0).2.1
        (fun a b => a == b) 5 0 0).1 = .OK := by
  constructor
  · exact (seglist_append_getItem_roundtrip 0 2 [3, 4]).1 (by decide) 1
      (by decide)
  · exact ((seglist_append_getItem_roundtrip 0 2 [3, 4]).2 ⟨[], 0, 1⟩
      ⟨none, none, 0⟩ (seglistInv_empty _ (storeInv_nil 0 1))
      (fun a b => a == b) 5 0 0 _ _ _ (by decide) rfl (by decide)).1

/-- Claim C6: for every well-formed seglist and every coordinate pair that
is out of range — segment number beyond the chain, index at or past the
per-segment capacity, or index at or past the logical end of data in the
last segment — `seglist_getItem` reports `INVALID_COORDINATE` and returns
no object, and `seglist_setItem` reports `INVALID_COORDINATE` and leaves
the segment store exactly unchanged; the coordinates are never clamped to
a valid slot, and in this model out-of-range access never reads or writes
outside the seglist (`getItem` is read-only by its type and `setItem`
returns the store intact). -/
theorem seglist_out_of_range_rejected (st : Store) (sl : Seglist)
    (hinv : SeglistInv st sl) (addrs : List Nat)
    (hchain : seglistChain st sl = some addrs) (segnum segindx : Nat)
    (hout : addrs.length ≤ segnum ∨ SEGLIST_OBJS_PER_SEG ≤ segindx ∨
      (segnum + 1 = addrs.length ∧ sl.sl_lastindx ≤ segindx)) :
    seglist_getItem st sl segnum segindx = (.INVALID_COORDINATE, none) ∧
      ∀ obj, seglist_setItem st sl obj segnum segindx =
        (.INVALID_COORDINATE, st) :=
  seglist_coord_invalid st sl hinv addrs hchain segnum segindx hout

theorem seglist_out_of_range_rejected_witness :
    seglist_getItem ⟨[], 0, 0⟩ ⟨none, none, 0⟩ 0 0 =
      (.INVALID_COORDINATE, none) ∧
    seglist_setItem ⟨[], 0, 0⟩ ⟨none, none, 0⟩ 7 0 0 =
      (.INVALID_COORDINATE, ⟨[], 0, 0⟩) := by
  have h := seglist_out_of_range_rejected ⟨[], 0, 0⟩ ⟨none, none, 0⟩
    (seglistInv_empty _ (storeInv_nil 0 0)) [] rfl 0 0
    (Or.inl (Nat.le_refl 0))
  exact ⟨h.1, h.2 7⟩

/-- Claim C7: if `appendItem` on a well-formed seglist fails (the heap
cannot supply a chunk for a new segment), the returned status is the
propagated `OUT_OF_MEMORY` error and the seglist is left exactly in its
prior state: `sl_rootseg`, `sl_lastseg`, `sl_lastindx` are unchanged and
the segment store — hence every stored object reference and every `next`
link — is unchanged, so no partially linked segment exists; moreover the
failure happens precisely because no chunk was available. -/
theorem seglist_append_failure_preserves_state (st : Store) (sl : Seglist)
    (hinv : SeglistInv st sl) (obj : Obj) (ret : PmReturn) (sl' : Seglist)
    (st' : Store) (heq : seglist_appendItem st sl obj = (ret, sl', st'))
    (hfail : ret ≠ .OK) :
    ret = .OUT_OF_MEMORY ∧ sl' = sl ∧ st' = st ∧ st.avail = 0 :=
  (seglist_appendItem_spec st sl obj hinv ret sl' st' heq).2 hfail

theorem seglist_append_failure_preserves_state_witness :
    (seglist_appendItem ⟨[], 0, 0⟩ ⟨none, none, 0⟩ 9).1 = .OUT_OF_MEMORY ∧
    (seglist_appendItem ⟨[], 0, 0⟩ ⟨none, none, 0⟩ 9).2.1 = ⟨none, none, 0⟩ ∧
    (seglist_appendItem ⟨[], 0, 0⟩ ⟨none, none, 0⟩ 9).2.2 = ⟨[], 0, 0⟩ := by
  have h := seglist_append_failure_preserves_state ⟨[], 0, 0⟩
    ⟨none, none, 0⟩ (seglistInv_empty _ (storeInv_nil 0 0)) 9 _ _ _ rfl
    (by decide)
  exact ⟨h.1, h.2.1, h.2.2.1⟩

/-- Claim C8: `findEqual`, scanning linearly from the given start
coordinates over a well-formed seglist, (a) reports `OK` if and only if
some occupied slot at or after the start coordinates holds an object
equal — under the supplied equality predicate — to the probe object;
(b) any coordinates it returns are at or after the start, designate a
slot holding a matching object, and are the first such slot (every
occupied slot at or after the start but strictly earlier in scan order
does not match); (c) success always comes with returned coordinates;
(d) an exhausted scan is reported as the normal `NOT_FOUND` outcome, the
only non-`OK` status (with the output coordinates unconstrained).  The
seglist is not modified: `seglist_findEqual` returns only a status and
optional coordinates, leaving the store untouched by its type. -/
theorem seglist_findEqual_contract (st : Store) (sl : Seglist)
    (hinv : SeglistInv st sl) (eq : Obj → Obj → Bool) (pobj : Obj)
    (segnum indx : Nat) :
    ((seglist_findEqual st sl eq pobj segnum indx).1 = .OK ↔
      ∃ sn ix o, coordLe (segnum, indx) (sn, ix) ∧
        SlotAt st sl.sl_rootseg sn ix o ∧ eq o pobj = true) ∧
    (∀ c, (seglist_findEqual st sl eq pobj segnum indx).2 = some c →
      coordLe (segnum, indx) c ∧
        (∃ o, SlotAt st sl.sl_rootseg c.1 c.2 o ∧ eq o pobj = true) ∧
        ∀ sn ix o, coordLe (segnum, indx) (sn, ix) → coordLt (sn, ix) c →
          SlotAt st sl.sl_rootseg sn ix o → eq o pobj = false) ∧
    ((seglist_findEqual st sl eq pobj segnum indx).1 = .OK →
      ∃ c, (seglist_findEqual st sl eq pobj segnum indx).2 = some c) ∧
    ((seglist_findEqual st sl eq pobj segnum indx).1 ≠ .OK →
      (seglist_findEqual st sl eq pobj segnum indx).1 = .NOT_FOUND) := by
  have h := seglist_findEqual_spec st sl hinv eq pobj segnum indx
  refine ⟨h.1, h.2.1, h.2.2.1, ?_⟩
  intro hne
  rcases h.2.2.2 with hOK | hNF
  · exact absurd hOK hne
  · exact hNF

theorem seglist_findEqual_contract_witness :
    (seglist_findEqual ⟨[], 0, 0⟩ ⟨none, none, 0⟩ (fun a b => a == b)
      7 0 0).1 = .NOT_FOUND :=
  (seglist_findEqual_contract ⟨[], 0, 0⟩ ⟨none, none, 0⟩
    (seglistInv_empty _ (storeInv_nil 0 0)) (fun a b => a == b) 7 0 0).2.2.2
    (by decide)

/-- Claim C10: every seglist operation preserves the structural
consistency invariant `SeglistInv` of the three seglist fields — the
segment chain from `sl_rootseg` is finite and non-circular (it is
enumerated by `seglistChain` within bounded fuel), the final segment's
`next` pointer is the null sentinel, and `sl_lastseg` points to that
final segment whenever the chain is non-empty; moreover `seglist_new`
yields exactly the empty seglist with null root and last pointers and
`sl_lastindx = 0`, and `seglist_clear` resets to that same empty,
consistent state. -/
theorem seglist_ops_preserve_consistency (st : Store) (sl : Seglist)
    (hinv : SeglistInv st sl) :
    (∀ ret osl st', seglist_new st = (ret, osl, st') →
      ∀ sl0, osl = some sl0 →
        sl0 = ⟨none, none, 0⟩ ∧ SeglistInv st' sl0) ∧
    (∀ obj ret sl' st', seglist_appendItem st sl obj = (ret, sl', st') →
      SeglistInv st' sl') ∧
    (∀ obj segnum segindx ret sl' st',
      seglist_insertItem st sl obj segnum segindx = (ret, sl', st') →
      SeglistInv st' sl') ∧
    (∀ obj segnum segindx ret st',
      seglist_setItem st sl obj segnum segindx = (ret, st') →
      SeglistInv st' sl) ∧
    (∀ sl' st', seglist_clear st sl = (sl', st') →
      sl' = ⟨none, none, 0⟩ ∧ SeglistInv st' sl') := by
  refine ⟨?_, ?_, ?_, ?_, ?_⟩
  · intro ret osl st' heq sl0 hosl
    rw [seglist_new] at heq
    split at heq
    · injection heq with h1 h2
      injection h2 with h2a h2b
      rw [← h2a] at hosl
      exact absurd hosl (by simp)
    · injection heq with h1 h2
      injection h2 with h2a h2b
      rw [← h2a] at hosl
      have hsl0 : sl0 = ⟨none, none, 0⟩ := (Option.some.inj hosl).symm
      refine ⟨hsl0, ?_⟩
      rw [← h2b, hsl0]
      exact seglistInv_empty _ (fun p hp => hinv.1 p hp)
  · intro obj ret sl' st' heq
    by_cases hok : ret = .OK
    · exact ((seglist_appendItem_spec st sl obj hinv ret sl' st' heq).1
        hok).1
    · obtain ⟨_, h1, h2, _⟩ :=
        (seglist_appendItem_spec st sl obj hinv ret sl' st' heq).2 hok
      rw [h1, h2]
      exact hinv
  · intro obj segnum segindx ret sl' st' heq
    by_cases hok : ret = .OK
    · exact ((seglist_appendItem_spec st sl obj hinv ret sl' st' heq).1
        hok).1
    · obtain ⟨_, h1, h2, _⟩ :=
        (seglist_appendItem_spec st sl obj hinv ret sl' st' heq).2 hok
      rw [h1, h2]
      exact hinv
  · intro obj segnum segindx ret st' heq
    by_cases hok : ret = .OK
    · exact ((seglist_setItem_spec st sl hinv obj segnum segindx ret st'
        heq).1 hok).1
    · obtain ⟨_, h2⟩ := (seglist_setItem_spec st sl hinv obj segnum segindx
        ret st' heq).2 hok
      rw [h2]
      exact hinv
  · intro sl' st' heq
    rw [seglist_clear] at heq
    injection heq with h1 h2
    refine ⟨h1.symm, ?_⟩
    rw [← h1, ← h2]
    exact seglistInv_empty st hinv.1

theorem seglist_ops_preserve_consistency_witness :
    (seglist_new ⟨[], 0, 1⟩).2.1 = some ⟨none, none, 0⟩ ∧
    SeglistInv (seglist_new ⟨[], 0, 1⟩).2.2 ⟨none, none, 0⟩ := by
  have h := (seglist_ops_preserve_consistency ⟨[], 0, 1⟩ ⟨none, none, 0⟩
    (seglistInv_empty _ (storeInv_nil 0 1))).1 _ _ _ rfl ⟨none, none, 0⟩
    (by decide)
  exact ⟨by decide, h.2⟩

end PyMite
